import Mathlib

/-!
Verification of the decision-and-motion engine of the Pac-Man maze game
(`pacman.py`): the grid/wall model, the BFS home-return distance field,
ghost direction selection, motion integration, and the game-loop state
transitions.  Definitions are shallow embeddings of the corresponding
Python functions; continuous quantities are modelled over `ℚ`,
machine integers over `ℤ`/`ℕ`.
-/

namespace Pacman

/-- A grid cell, addressed `(row, col)` with integer coordinates as in the
Python source (which freely forms out-of-range neighbor coordinates). -/
abbrev Cell := ℤ × ℤ

/-- Direction constants `N4, E4, S4, W4 = 0, 1, 2, 3` from the source. -/
def N4 : ℕ := 0

/-- East. -/
def E4 : ℕ := 1

/-- South. -/
def S4 : ℕ := 2

/-- West. -/
def W4 : ℕ := 3

/-- Row deltas `DR4 = [-1, 0, 1, 0]` (only indices `0..3` are ever used
by the source). -/
def DR4 : ℕ → ℤ
  | 0 => -1
  | 2 => 1
  | _ => 0

/-- Column deltas `DC4 = [0, 1, 0, -1]` (only indices `0..3` are ever
used by the source). -/
def DC4 : ℕ → ℤ
  | 1 => 1
  | 3 => -1
  | _ => 0

/-- The neighbor of a cell one step in direction `d`
(`nr, nc = r + DR4[dir4], c + DC4[dir4]`). -/
def stepCell (p : Cell) (d : ℕ) : Cell := (p.1 + DR4 d, p.2 + DC4 d)

/-- The maze data loaded from JSON: grid size, horizontal/vertical wall
matrices, start cell and goal cells. -/
structure Maze where
  gridSize : ℕ
  hWalls : List (List Bool)
  vWalls : List (List Bool)
  startCell : Cell
  goalCells : List Cell

/-- Indexing a wall matrix: `w[r][c]`, `none` when either index is out of
range (a Python `IndexError`). -/
def wallAt (w : List (List Bool)) (r c : ℕ) : Option Bool :=
  (w[r]?).bind fun row => row[c]?

/-- `PacmanGame.has_wall(r, c, direction4)`: out-of-range cells answer
`True`; otherwise the stored wall entry for the queried edge, with an
`IndexError` on the lookup also answering `True`; an unknown direction
value answers `False` exactly as the Python fall-through does. -/
def hasWall (m : Maze) (r c : ℤ) (d : ℕ) : Bool :=
  if ¬(0 ≤ r ∧ r < (m.gridSize : ℤ) ∧ 0 ≤ c ∧ c < (m.gridSize : ℤ)) then true
  else
    let rn := r.toNat
    let cn := c.toNat
    if d = N4 then (wallAt m.hWalls rn cn).getD true
    else if d = E4 then (wallAt m.vWalls rn (cn + 1)).getD true
    else if d = S4 then (wallAt m.hWalls (rn + 1) cn).getD true
    else if d = W4 then (wallAt m.vWalls rn cn).getD true
    else false

/-- A cell lies inside the `gridSize × gridSize` grid
(`0 <= r < gs and 0 <= c < gs`). -/
def inRangeB (m : Maze) (p : Cell) : Bool :=
  decide (0 ≤ p.1 ∧ p.1 < (m.gridSize : ℤ) ∧ 0 ≤ p.2 ∧ p.2 < (m.gridSize : ℤ))

/-- The maze data marks every perimeter edge of the grid as a wall (the
maze editor always writes such data; nothing in `pacman.py` enforces it). -/
def BoundaryClosed (m : Maze) : Prop :=
  (∀ c < m.gridSize, (wallAt m.hWalls 0 c).getD true = true ∧
      (wallAt m.hWalls m.gridSize c).getD true = true) ∧
  (∀ r < m.gridSize, (wallAt m.vWalls r 0).getD true = true ∧
      (wallAt m.vWalls r m.gridSize).getD true = true)

instance (m : Maze) : Decidable (BoundaryClosed m) := by
  unfold BoundaryClosed; infer_instance

@[simp] lemma DR4_0 : DR4 0 = -1 := rfl

@[simp] lemma DR4_1 : DR4 1 = 0 := rfl

@[simp] lemma DR4_2 : DR4 2 = 1 := rfl

@[simp] lemma DR4_3 : DR4 3 = 0 := rfl

@[simp] lemma DC4_0 : DC4 0 = 0 := rfl

@[simp] lemma DC4_1 : DC4 1 = 1 := rfl

@[simp] lemma DC4_2 : DC4 2 = 0 := rfl

@[simp] lemma DC4_3 : DC4 3 = -1 := rfl

/-- Unfolding `hasWall` at an in-range cell for the north direction. -/
lemma hasWall_N (m : Maze) (r c : ℤ)
    (hin : 0 ≤ r ∧ r < (m.gridSize : ℤ) ∧ 0 ≤ c ∧ c < (m.gridSize : ℤ)) :
    hasWall m r c 0 = (wallAt m.hWalls r.toNat c.toNat).getD true := by
  simp only [hasWall, not_not_intro hin, if_false, N4, E4, S4, W4]
  norm_num

/-- Unfolding `hasWall` at an in-range cell for the east direction. -/
lemma hasWall_E (m : Maze) (r c : ℤ)
    (hin : 0 ≤ r ∧ r < (m.gridSize : ℤ) ∧ 0 ≤ c ∧ c < (m.gridSize : ℤ)) :
    hasWall m r c 1 = (wallAt m.vWalls r.toNat (c.toNat + 1)).getD true := by
  simp only [hasWall, not_not_intro hin, if_false, N4, E4, S4, W4]
  norm_num

/-- Unfolding `hasWall` at an in-range cell for the south direction. -/
lemma hasWall_S (m : Maze) (r c : ℤ)
    (hin : 0 ≤ r ∧ r < (m.gridSize : ℤ) ∧ 0 ≤ c ∧ c < (m.gridSize : ℤ)) :
    hasWall m r c 2 = (wallAt m.hWalls (r.toNat + 1) c.toNat).getD true := by
  simp only [hasWall, not_not_intro hin, if_false, N4, E4, S4, W4]
  norm_num

/-- Unfolding `hasWall` at an in-range cell for the west direction. -/
lemma hasWall_W (m : Maze) (r c : ℤ)
    (hin : 0 ≤ r ∧ r < (m.gridSize : ℤ) ∧ 0 ≤ c ∧ c < (m.gridSize : ℤ)) :
    hasWall m r c 3 = (wallAt m.vWalls r.toNat c.toNat).getD true := by
  simp only [hasWall, not_not_intro hin, if_false, N4, E4, S4, W4]
  norm_num

/-- A 1×1 maze whose stored perimeter walls are all absent: the maze data
itself leaves the boundary open. -/
def openMaze1 : Maze :=
  { gridSize := 1
    hWalls := [[false], [false]]
    vWalls := [[false, false]]
    startCell := (0, 0)
    goalCells := [(0, 0)] }

/-- Claim C2, counterexample.  In `openMaze1` the cell `(0,0)` is in range
and its north neighbor `(-1,0)` is outside the grid, yet
`has_wall(0,0,N4)` returns the stored entry `h_walls[0][0] = False`, not
`True`: the neighbor-outside case is not fail-closed unconditionally. -/
theorem C2_counterexample :
    hasWall openMaze1 0 0 N4 = false ∧
    (stepCell (0, 0) N4).1 < 0 := by
  constructor
  · rfl
  · decide

/-- Claim C2, amended: a query at an out-of-range cell returns `true`
unconditionally; a query whose neighbor would lie outside the grid
returns the stored perimeter wall entry, hence `true` whenever the maze
data closes the boundary (`BoundaryClosed`) — but not unconditionally. -/
theorem C2_amended (m : Maze) (r c : ℤ) (d : ℕ) (hd : d < 4) :
    (¬(0 ≤ r ∧ r < (m.gridSize : ℤ) ∧ 0 ≤ c ∧ c < (m.gridSize : ℤ)) →
      hasWall m r c d = true) ∧
    (BoundaryClosed m →
      ¬(0 ≤ (stepCell (r, c) d).1 ∧ (stepCell (r, c) d).1 < (m.gridSize : ℤ) ∧
        0 ≤ (stepCell (r, c) d).2 ∧ (stepCell (r, c) d).2 < (m.gridSize : ℤ)) →
      hasWall m r c d = true) := by
  constructor
  · intro h
    simp only [hasWall, if_pos h]
  · intro hb hn
    by_cases hin : 0 ≤ r ∧ r < (m.gridSize : ℤ) ∧ 0 ≤ c ∧ c < (m.gridSize : ℤ)
    · -- the queried cell is in range, so the neighbor leaves through one side
      simp only [stepCell] at hn
      interval_cases d
      · -- N: the neighbor is (r-1, c), so r = 0
        simp only [DR4_0, DC4_0] at hn
        have hr : r.toNat = 0 := by omega
        have hc : c.toNat < m.gridSize := by omega
        rw [hasWall_N m r c hin, hr]
        exact (hb.1 c.toNat hc).1
      · -- E: the neighbor is (r, c+1), so c = gs - 1
        simp only [DR4_1, DC4_1] at hn
        have hc : c.toNat + 1 = m.gridSize := by omega
        have hr : r.toNat < m.gridSize := by omega
        rw [hasWall_E m r c hin, hc]
        exact (hb.2 r.toNat hr).2
      · -- S: the neighbor is (r+1, c), so r = gs - 1
        simp only [DR4_2, DC4_2] at hn
        have hr : r.toNat + 1 = m.gridSize := by omega
        have hc : c.toNat < m.gridSize := by omega
        rw [hasWall_S m r c hin, hr]
        exact (hb.1 c.toNat hc).2
      · -- W: the neighbor is (r, c-1), so c = 0
        simp only [DR4_3, DC4_3] at hn
        have hc : c.toNat = 0 := by omega
        have hr : r.toNat < m.gridSize := by omega
        rw [hasWall_W m r c hin, hc]
        exact (hb.2 r.toNat hr).1
    · simp only [hasWall, if_pos hin]

/-- A 2×2 maze with a fully closed perimeter and a fully open interior. -/
def closedMaze2 : Maze :=
  { gridSize := 2
    hWalls := [[true, true], [false, false], [true, true]]
    vWalls := [[true, false, true], [true, false, true]]
    startCell := (1, 0)
    goalCells := [(0, 0)] }

/-- Witness for the amended claim C2 at a concrete input: `closedMaze2`
has a closed boundary, and the query at `(1,0)` toward south (whose
neighbor `(2,0)` is outside) indeed answers `true`. -/
theorem C2_amended_witness :
    (S4 < 4 ∧ BoundaryClosed closedMaze2 ∧
      ¬(0 ≤ (stepCell ((1 : ℤ), (0 : ℤ)) S4).1 ∧
        (stepCell ((1 : ℤ), (0 : ℤ)) S4).1 < ((closedMaze2.gridSize : ℤ)) ∧
        0 ≤ (stepCell ((1 : ℤ), (0 : ℤ)) S4).2 ∧
        (stepCell ((1 : ℤ), (0 : ℤ)) S4).2 < ((closedMaze2.gridSize : ℤ)))) ∧
    hasWall closedMaze2 1 0 S4 = true :=
  ⟨⟨by decide, by decide, by decide⟩,
    (C2_amended closedMaze2 1 0 S4 (by decide)).2 (by decide) (by decide)⟩

/-! ## The BFS home-return distance field (`_create_ghost_return_map`) -/

/-- The distance field: `none` models the `float('inf')` "unreached"
sentinel of the numpy array, `some d` a finite BFS distance. -/
abbrev DMap := Cell → Option ℕ

/-- Point update of a distance field (`self.ghost_return_map[nr, nc] = v`). -/
def updateMap (dm : DMap) (p : Cell) (v : ℕ) : DMap :=
  fun q => if q = p then some v else dm q

/-- One direction of the BFS inner loop: if the edge is open and the
neighbor is an in-range cell still at infinity, assign `dist + 1` and
append the neighbor to the queue. -/
def bfsExpandDir (m : Maze) (p : Cell) (dist : ℕ) (st : DMap × List Cell)
    (d : ℕ) : DMap × List Cell :=
  if hasWall m p.1 p.2 d = false then
    if inRangeB m (stepCell p d) = true ∧ st.1 (stepCell p d) = none then
      (updateMap st.1 (stepCell p d) (dist + 1), st.2 ++ [stepCell p d])
    else st
  else st

/-- The body of the BFS `while` loop for one dequeued cell: explore the
four directions in `range(4)` order. -/
def bfsProcess (m : Maze) (p : Cell) (dist : ℕ) (st : DMap × List Cell) :
    DMap × List Cell :=
  (List.range 4).foldl (bfsExpandDir m p dist) st

/-- The BFS `while q:` loop, structurally recursive on a fuel argument;
`createGhostReturnMap` supplies fuel that provably exceeds the number of
iterations, so the fuel-out branch is never taken. -/
def bfsLoop (m : Maze) : ℕ → DMap → List Cell → DMap
  | 0, dm, _ => dm
  | _ + 1, dm, [] => dm
  | fuel + 1, dm, p :: q =>
      let dist := (dm p).getD 0
      let st := bfsProcess m p dist (dm, q)
      bfsLoop m fuel st.1 st.2

/-- Seeding loop: every in-range goal cell gets distance `0` and is
enqueued; out-of-range goal cells are skipped. -/
def seedGoals (m : Maze) (goals : List Cell) : DMap × List Cell :=
  goals.foldl
    (fun st g =>
      if inRangeB m g = true then (updateMap st.1 g 0, st.2 ++ [g]) else st)
    (fun _ => none, [])

/-- The goal set actually used as BFS seeds: `_create_ghost_return_map`
first replaces an empty `goal_cells` set by the single structural-center
cell `(gs//2 - 1, gs//2 - 1)` (this mutation also becomes the session's
goal set). -/
def effectiveGoals (m : Maze) : List Cell :=
  if m.goalCells = [] then
    [((m.gridSize : ℤ) / 2 - 1, (m.gridSize : ℤ) / 2 - 1)]
  else m.goalCells

/-- All in-range cells of the grid, used only to measure BFS progress. -/
def allCells (m : Maze) : List Cell :=
  (List.range m.gridSize).flatMap fun (r : ℕ) =>
    (List.range m.gridSize).map fun (c : ℕ) => ((r : ℤ), (c : ℤ))

/-- Number of in-range cells still at infinity: the BFS termination
measure together with the queue length. -/
def noneCount (m : Maze) (dm : DMap) : ℕ :=
  (allCells m).countP fun p => dm p = none

/-- `_create_ghost_return_map`: seed the (effective) goal cells at
distance `0`, then run the BFS flood fill to completion. -/
def createGhostReturnMap (m : Maze) : DMap :=
  let st := seedGoals m (effectiveGoals m)
  bfsLoop m (m.gridSize * m.gridSize + st.2.length) st.1 st.2

/-! ## Reachability through non-walled edges -/

/-- `AdjB m p c`: both cells are in range and a single step from `p`
through a non-walled edge reaches `c`. -/
def AdjB (m : Maze) (p c : Cell) : Prop :=
  inRangeB m p = true ∧ inRangeB m c = true ∧
    ∃ d, d < 4 ∧ hasWall m p.1 p.2 d = false ∧ c = stepCell p d

/-- There is a walk of length `n` through non-walled edges from some
in-range seed cell to `c`. -/
inductive HasPath (m : Maze) (seeds : List Cell) : Cell → ℕ → Prop
  | base (c : Cell) (hc : c ∈ seeds) (hr : inRangeB m c = true) :
      HasPath m seeds c 0
  | step (p c : Cell) (n : ℕ) (hp : HasPath m seeds p n) (ha : AdjB m p c) :
      HasPath m seeds c (n + 1)

/-- A cell is reachable from the seed set through non-walled edges. -/
def ReachableFrom (m : Maze) (seeds : List Cell) (c : Cell) : Prop :=
  ∃ n, HasPath m seeds c n

/-- Every cell on a path is in range. -/
lemma HasPath.inRange {m : Maze} {seeds : List Cell} {c : Cell} {n : ℕ}
    (h : HasPath m seeds c n) : inRangeB m c = true := by
  cases h with
  | base _ _ hr => exact hr
  | step _ _ _ _ ha => exact ha.2.1

/-- An open in-range edge can only start at an in-range cell (`has_wall`
answers `True` for any out-of-range source cell). -/
lemma inRange_of_hasWall_false {m : Maze} {r c : ℤ} {d : ℕ}
    (h : hasWall m r c d = false) :
    0 ≤ r ∧ r < (m.gridSize : ℤ) ∧ 0 ≤ c ∧ c < (m.gridSize : ℤ) := by
  by_contra hin
  simp only [hasWall, if_pos hin] at h
  exact Bool.true_eq_false.mp h

/-- Wall symmetry: the edge between two in-range neighbor cells is stored
in a single matrix entry, so the query from either side agrees. -/
lemma hasWall_symm {m : Maze} {p c : Cell} {d : ℕ} (hd : d < 4)
    (hp : inRangeB m p = true) (hc : inRangeB m c = true)
    (hstep : c = stepCell p d) :
    hasWall m c.1 c.2 ((d + 2) % 4) = hasWall m p.1 p.2 d := by
  simp only [inRangeB, decide_eq_true_eq] at hp hc
  obtain ⟨p1, p2⟩ := p
  obtain ⟨c1, c2⟩ := c
  simp only [stepCell, Prod.mk.injEq] at hstep
  interval_cases d
  · -- N from p, S from c
    simp only [DR4_0, DC4_0] at hstep
    rw [show (0 + 2) % 4 = 2 by norm_num, hasWall_S m c1 c2 hc, hasWall_N m p1 p2 hp]
    have h1 : c1.toNat + 1 = p1.toNat := by omega
    have h2 : c2.toNat = p2.toNat := by omega
    rw [h1, h2]
  · -- E from p, W from c
    simp only [DR4_1, DC4_1] at hstep
    rw [show (1 + 2) % 4 = 3 by norm_num, hasWall_W m c1 c2 hc, hasWall_E m p1 p2 hp]
    have h1 : c1.toNat = p1.toNat := by omega
    have h2 : c2.toNat = p2.toNat + 1 := by omega
    rw [h1, h2]
  · -- S from p, N from c
    simp only [DR4_2, DC4_2] at hstep
    rw [show (2 + 2) % 4 = 0 by norm_num, hasWall_N m c1 c2 hc, hasWall_S m p1 p2 hp]
    have h1 : c1.toNat = p1.toNat + 1 := by omega
    have h2 : c2.toNat = p2.toNat := by omega
    rw [h1, h2]
  · -- W from p, E from c
    simp only [DR4_3, DC4_3] at hstep
    rw [show (3 + 2) % 4 = 1 by norm_num, hasWall_E m c1 c2 hc, hasWall_W m p1 p2 hp]
    have h1 : c1.toNat = p1.toNat := by omega
    have h2 : c2.toNat + 1 = p2.toNat := by omega
    rw [h1, h2]

/-- Stepping back through the opposite direction returns to the source
cell. -/
lemma stepCell_opp {p c : Cell} {d : ℕ} (hd : d < 4)
    (hstep : c = stepCell p d) : p = stepCell c ((d + 2) % 4) := by
  obtain ⟨p1, p2⟩ := p
  obtain ⟨c1, c2⟩ := c
  simp only [stepCell, Prod.mk.injEq] at hstep ⊢
  interval_cases d <;> simp_all

/-- Adjacency through non-walled edges is symmetric. -/
lemma AdjB.symm {m : Maze} {p c : Cell} (h : AdjB m p c) : AdjB m c p := by
  obtain ⟨hp, hc, d, hd, hw, hstep⟩ := h
  exact ⟨hc, hp, (d + 2) % 4, by omega,
    (hasWall_symm hd hp hc hstep).trans hw, stepCell_opp hd hstep⟩

/-! ## BFS invariants -/

/-- Invariant of the BFS loop state: the queue holds mapped cells with
nondecreasing values spread over at most two consecutive levels, every
assigned value is the exact shortest walk length from the seed set, and
every fully processed cell already has all of its neighbors assigned. -/
structure BfsInv (m : Maze) (seeds : List Cell) (dm : DMap) (q : List Cell) :
    Prop where
  seedsMapped : ∀ g ∈ seeds, inRangeB m g = true → ∃ v, dm g = some v
  queueMapped : ∀ p ∈ q, ∃ v, dm p = some v
  queueVals : (q.map fun p => (dm p).getD 0).Pairwise fun a b => a ≤ b ∧ b ≤ a + 1
  queueNodup : q.Nodup
  sound : ∀ c v, dm c = some v → HasPath m seeds c v
  minimal : ∀ c v e, dm c = some v → HasPath m seeds c e → v ≤ e
  closed : ∀ c v, dm c = some v → c ∉ q → ∀ n, AdjB m c n → ∃ e, dm n = some e

/-- Frontier bound: while the queue head carries value `d`, every cell
still at infinity is at walk distance greater than `d` from the seeds. -/
lemma frontier_bound {m : Maze} {seeds : List Cell} {dm : DMap} {p : Cell}
    {q : List Cell} (inv : BfsInv m seeds dm (p :: q)) {d : ℕ}
    (hd : dm p = some d) {c : Cell} {e : ℕ} (hpath : HasPath m seeds c e)
    (hnone : dm c = none) : d < e := by
  induction hpath with
  | base c hc hr =>
      obtain ⟨v, hv⟩ := inv.seedsMapped c hc hr
      rw [hv] at hnone
      exact absurd hnone (by simp)
  | step pc c n hp ha ih =>
      cases hpc : dm pc with
      | none => exact Nat.lt_succ_of_lt (ih hpc)
      | some v =>
          have hv_le : v ≤ n := inv.minimal pc v n hpc hp
          -- `pc` cannot be fully processed, else `c` would be assigned
          have hpc_mem : pc ∈ p :: q := by
            by_contra hmem
            obtain ⟨e', he'⟩ := inv.closed pc v hpc hmem c ha
            rw [he'] at hnone
            exact absurd hnone (by simp)
          -- every queue value is at least the head value `d`
          have hd_le : d ≤ v := by
            rcases List.mem_cons.mp hpc_mem with h | h
            · subst h
              rw [hpc] at hd
              have : v = d := Option.some.inj hd
              omega
            · have hqv := inv.queueVals
              rw [List.map_cons] at hqv
              have hrel := (List.pairwise_cons.mp hqv).1 ((dm pc).getD 0)
                (List.mem_map_of_mem _ h)
              rw [hd, hpc] at hrel
              simpa using hrel.1
          omega

/-- Membership in `allCells` is exactly the in-range predicate. -/
lemma mem_allCells {m : Maze} {p : Cell} :
    p ∈ allCells m ↔ inRangeB m p = true := by
  obtain ⟨p1, p2⟩ := p
  rw [allCells, List.mem_flatMap, inRangeB, decide_eq_true_eq]
  constructor
  · rintro ⟨r, hr, hmem⟩
    rw [List.mem_range] at hr
    rw [List.mem_map] at hmem
    obtain ⟨c, hc, heq⟩ := hmem
    rw [List.mem_range] at hc
    rw [Prod.mk.injEq] at heq
    obtain ⟨h1, h2⟩ := heq
    omega
  · rintro ⟨h1, h2, h3, h4⟩
    refine ⟨p1.toNat, List.mem_range.mpr (by omega), ?_⟩
    rw [List.mem_map]
    refine ⟨p2.toNat, List.mem_range.mpr (by omega), ?_⟩
    rw [Prod.mk.injEq]
    constructor <;> omega

/-- Assigning a finite value to an unassigned member cell strictly
decreases the count of unassigned cells in any list containing it. -/
lemma countP_update_lt {dm : DMap} {n : Cell} {v : ℕ} :
    ∀ (l : List Cell), n ∈ l → dm n = none →
      (l.countP fun c => decide (updateMap dm n v c = none)) + 1 ≤
        l.countP fun c => decide (dm c = none)
  | [], hmem, _ => absurd hmem (List.not_mem_nil n)
  | x :: t, hmem, hnone => by
      have hmono : ∀ l' : List Cell,
          (l'.countP fun c => decide (updateMap dm n v c = none)) ≤
            l'.countP fun c => decide (dm c = none) := by
        intro l'
        refine List.countP_mono_left fun c _ hc => ?_
        simp only [updateMap, decide_eq_true_eq] at hc ⊢
        split at hc
        · exact absurd hc (by simp)
        · exact hc
      by_cases hx : x = n
      · subst hx
        rw [List.countP_cons_of_neg _ _ (by simp [updateMap]),
          List.countP_cons_of_pos _ _ (by simp [hnone])]
        exact Nat.succ_le_succ (hmono t)
      · have hmem' : n ∈ t := by
          rcases List.mem_cons.mp hmem with h | h
          · exact absurd h.symm hx
          · exact h
        have ih := countP_update_lt (v := v) t hmem' hnone
        by_cases hxn : dm x = none
        · rw [List.countP_cons_of_pos _ _
              (by simp only [decide_eq_true_eq, updateMap, if_neg hx]; exact hxn),
            List.countP_cons_of_pos _ _ (by simpa using hxn)]
          omega
        · rw [List.countP_cons_of_neg _ _
              (by simp only [decide_eq_true_eq, updateMap, if_neg hx]; exact hxn),
            List.countP_cons_of_neg _ _ (by simpa using hxn)]
          exact ih

/-- One expansion step never increases the BFS progress measure
(unassigned in-range cells plus queue length). -/
lemma expand_measure {m : Maze} {p : Cell} {dist : ℕ}
    {st : DMap × List Cell} {dir : ℕ} :
    noneCount m (bfsExpandDir m p dist st dir).1 +
      (bfsExpandDir m p dist st dir).2.length ≤
    noneCount m st.1 + st.2.length := by
  unfold bfsExpandDir
  split
  · split
    · next h =>
        obtain ⟨hin, hnone⟩ := h
        have hmem : stepCell p dir ∈ allCells m := mem_allCells.mpr hin
        have := countP_update_lt (v := dist + 1) (allCells m) hmem hnone
        simp only [noneCount, List.length_append, List.length_cons,
          List.length_nil]
        omega
    · exact le_refl _
  · exact le_refl _

/-- Expansion steps only add assignments, never change existing ones. -/
lemma expand_mono {m : Maze} {p : Cell} {dist : ℕ} {st : DMap × List Cell}
    {dir : ℕ} {c : Cell} {v : ℕ} (h : st.1 c = some v) :
    (bfsExpandDir m p dist st dir).1 c = some v := by
  unfold bfsExpandDir
  split
  · split
    · next hcond =>
        simp only [updateMap]
        split
        · next hc => rw [hc] at h; rw [h] at hcond; exact absurd hcond.2 (by simp)
        · exact h
    · exact h
  · exact h

/-- After expanding direction `dir` (an open edge to an in-range cell),
that neighbor is assigned. -/
lemma expand_nbr {m : Maze} {p : Cell} {dir : ℕ} (dist : ℕ)
    (st : DMap × List Cell) (hw : hasWall m p.1 p.2 dir = false)
    (hr : inRangeB m (stepCell p dir) = true) :
    ∃ v, (bfsExpandDir m p dist st dir).1 (stepCell p dir) = some v := by
  unfold bfsExpandDir
  rw [if_pos hw]
  by_cases hnone : st.1 (stepCell p dir) = none
  · rw [if_pos ⟨hr, hnone⟩]
    exact ⟨dist + 1, by simp [updateMap]⟩
  · rw [if_neg (by simp [hnone])]
    exact Option.ne_none_iff_exists'.mp hnone

/-- Invariant of the partially executed direction loop for the dequeued
cell `p` at distance `d`: the map extends the pre-loop map `dm0` exactly
by the cells of `new`, which are the freshly discovered neighbors of `p`,
all assigned `d + 1` and appended to the queue. -/
structure MidInv (m : Maze) (dm0 : DMap) (p : Cell) (d : ℕ)
    (rest : List Cell) (st : DMap × List Cell) (new : List Cell) : Prop where
  ext : ∀ c v, dm0 c = some v → st.1 c = some v
  newOnly : ∀ c v, st.1 c = some v →
    dm0 c = some v ∨ (v = d + 1 ∧ dm0 c = none ∧ AdjB m p c ∧ c ∈ new)
  queueEq : st.2 = rest ++ new
  newNodup : new.Nodup
  newProps : ∀ n ∈ new, dm0 n = none ∧ st.1 n = some (d + 1)

/-- One direction step preserves the mid-loop invariant. -/
lemma midinv_expand {m : Maze} {dm0 : DMap} {p : Cell} {d : ℕ}
    {rest : List Cell} {st : DMap × List Cell} {new : List Cell} (dir : ℕ)
    (hdir : dir < 4) (hp : inRangeB m p = true)
    (inv : MidInv m dm0 p d rest st new) :
    ∃ new2, MidInv m dm0 p d rest (bfsExpandDir m p d st dir) new2 := by
  unfold bfsExpandDir
  split
  · next hw =>
      split
      · next hcond =>
          obtain ⟨hin, hnone⟩ := hcond
          set n := stepCell p dir with hn
          have hadj : AdjB m p n := ⟨hp, hin, dir, hdir, hw, rfl⟩
          have hd0 : dm0 n = none := by
            cases hv : dm0 n with
            | none => rfl
            | some v => rw [inv.ext n v hv] at hnone; exact absurd hnone (by simp)
          refine ⟨new ++ [n], ?_, ?_, ?_, ?_, ?_⟩
          · intro c v hc
            have := inv.ext c v hc
            simp only [updateMap]
            split
            · next hceq => rw [hceq] at this; rw [this] at hnone
                           exact absurd hnone (by simp)
            · exact this
          · intro c v hc
            simp only [updateMap] at hc
            split at hc
            · next hceq =>
                right
                refine ⟨(Option.some.inj hc).symm, ?_, ?_, ?_⟩
                · rw [hceq]; exact hd0
                · rw [hceq]; exact hadj
                · simp [hceq]
            · rcases inv.newOnly c v hc with h | ⟨h1, h2, h3, h4⟩
              · exact Or.inl h
              · exact Or.inr ⟨h1, h2, h3, by simp [h4]⟩
          · simp only [inv.queueEq, List.append_assoc]
          · rw [List.nodup_append]
            refine ⟨inv.newNodup, List.nodup_singleton n, ?_⟩
            intro x hx hx'
            rw [List.mem_singleton] at hx'
            have h2 := (inv.newProps x hx).2
            rw [hx', hnone] at h2
            simp at h2
          · intro x hx
            rcases List.mem_append.mp hx with h | h
            · obtain ⟨h1, h2⟩ := inv.newProps x h
              refine ⟨h1, ?_⟩
              simp only [updateMap]
              split
              · rfl
              · exact h2
            · rw [List.mem_singleton] at h
              subst h
              exact ⟨hd0, by simp [updateMap]⟩
      · exact ⟨new, inv⟩
  · exact ⟨new, inv⟩

/-- Lists whose elements are all equal to a reflexive point are pairwise
related. -/
lemma pairwise_of_all_eq {α : Type} {P : α → α → Prop} {x : α} :
    ∀ (l : List α), (∀ a ∈ l, a = x) → P x x → l.Pairwise P
  | [], _, _ => List.Pairwise.nil
  | a :: t, h, hx => by
      have ha : a = x := h a (List.mem_cons_self a t)
      refine List.Pairwise.cons ?_ (pairwise_of_all_eq t (fun b hb => h b (List.mem_cons_of_mem a hb)) hx)
      intro b hb
      rw [ha, h b (List.mem_cons_of_mem a hb)]
      exact hx

/-- The direction fold never increases the BFS progress measure. -/
lemma foldl_expand_measure {m : Maze} {p : Cell} (dist : ℕ) :
    ∀ (L : List ℕ) (st : DMap × List Cell),
      noneCount m (L.foldl (bfsExpandDir m p dist) st).1 +
        (L.foldl (bfsExpandDir m p dist) st).2.length ≤
      noneCount m st.1 + st.2.length
  | [], _ => le_refl _
  | dir :: L, st =>
      le_trans (foldl_expand_measure dist L (bfsExpandDir m p dist st dir))
        expand_measure

/-- Processing the head of the queue preserves the BFS invariant. -/
lemma bfs_step {m : Maze} {seeds : List Cell} {dm : DMap} {p : Cell}
    {rest : List Cell} (inv : BfsInv m seeds dm (p :: rest)) {dval : ℕ}
    (hd : dm p = some dval) :
    BfsInv m seeds (bfsProcess m p dval (dm, rest)).1
      (bfsProcess m p dval (dm, rest)).2 := by
  have hpIn : inRangeB m p = true := (inv.sound p dval hd).inRange
  have hproc : bfsProcess m p dval (dm, rest) =
      bfsExpandDir m p dval (bfsExpandDir m p dval
        (bfsExpandDir m p dval (bfsExpandDir m p dval (dm, rest) 0) 1) 2) 3 := rfl
  rw [hproc]
  set s1 := bfsExpandDir m p dval (dm, rest) 0 with hs1
  set s2 := bfsExpandDir m p dval s1 1 with hs2
  set s3 := bfsExpandDir m p dval s2 2 with hs3
  set s4 := bfsExpandDir m p dval s3 3 with hs4
  have m0 : MidInv m dm p dval rest (dm, rest) [] :=
    ⟨fun _ _ h => h, fun _ _ h => Or.inl h, (List.append_nil rest).symm,
      List.nodup_nil, by simp⟩
  obtain ⟨n1, m1⟩ := midinv_expand 0 (by norm_num) hpIn m0
  obtain ⟨n2, m2⟩ := midinv_expand 1 (by norm_num) hpIn m1
  obtain ⟨n3, m3⟩ := midinv_expand 2 (by norm_num) hpIn m2
  obtain ⟨new, m4⟩ := midinv_expand 3 (by norm_num) hpIn m3
  -- after all four directions, every open in-range neighbor of `p` is assigned
  have closure_p : ∀ n, AdjB m p n → ∃ e, s4.1 n = some e := by
    rintro n ⟨_, hnin, dir, hdir, hw, hstep⟩
    interval_cases dir
    · obtain ⟨v, hv⟩ := expand_nbr dval (dm, rest) hw (hstep ▸ hnin)
      rw [hstep]
      exact ⟨v, expand_mono (expand_mono (expand_mono hv))⟩
    · obtain ⟨v, hv⟩ := expand_nbr dval s1 hw (hstep ▸ hnin)
      rw [hstep]
      exact ⟨v, expand_mono (expand_mono hv)⟩
    · obtain ⟨v, hv⟩ := expand_nbr dval s2 hw (hstep ▸ hnin)
      rw [hstep]
      exact ⟨v, expand_mono hv⟩
    · obtain ⟨v, hv⟩ := expand_nbr dval s3 hw (hstep ▸ hnin)
      rw [hstep]
      exact ⟨v, hv⟩
  have hrestvals : ∀ x ∈ rest, (s4.1 x).getD 0 = (dm x).getD 0 := by
    intro x hx
    obtain ⟨v, hv⟩ := inv.queueMapped x (List.mem_cons_of_mem p hx)
    rw [hv, m4.ext x v hv]
  have hqv := inv.queueVals
  rw [List.map_cons, hd] at hqv
  obtain ⟨hhead, htail⟩ := List.pairwise_cons.mp hqv
  rw [m4.queueEq]
  refine ⟨?_, ?_, ?_, ?_, ?_, ?_, ?_⟩
  · -- seedsMapped
    intro g hg hgr
    obtain ⟨v, hv⟩ := inv.seedsMapped g hg hgr
    exact ⟨v, m4.ext g v hv⟩
  · -- queueMapped
    intro x hx
    rcases List.mem_append.mp hx with h | h
    · obtain ⟨v, hv⟩ := inv.queueMapped x (List.mem_cons_of_mem p h)
      exact ⟨v, m4.ext x v hv⟩
    · exact ⟨dval + 1, (m4.newProps x h).2⟩
  · -- queueVals
    rw [List.map_append]
    rw [List.pairwise_append]
    refine ⟨?_, ?_, ?_⟩
    · have : rest.map (fun c => (s4.1 c).getD 0) =
          rest.map (fun c => (dm c).getD 0) :=
        List.map_congr_left hrestvals
      rw [this]
      exact htail
    · refine pairwise_of_all_eq _ (x := dval + 1) ?_ (by omega)
      intro b hb
      rw [List.mem_map] at hb
      obtain ⟨x, hx, hfx⟩ := hb
      rw [(m4.newProps x hx).2] at hfx
      exact hfx.symm
    · intro a ha b hb
      rw [List.mem_map] at ha hb
      obtain ⟨x, hx, hfx⟩ := ha
      obtain ⟨y, hy, hfy⟩ := hb
      have hxv : a = (dm x).getD 0 := by rw [← hfx, hrestvals x hx]
      have hbv : b = dval + 1 := by rw [← hfy, (m4.newProps y hy).2]; rfl
      have := hhead ((dm x).getD 0) (by
        rw [List.mem_map]
        exact ⟨x, hx, rfl⟩)
      simp only [Option.getD_some] at this
      omega
  · -- queueNodup
    rw [List.nodup_append]
    refine ⟨(List.nodup_cons.mp inv.queueNodup).2, m4.newNodup, ?_⟩
    intro x hx hx'
    obtain ⟨v, hv⟩ := inv.queueMapped x (List.mem_cons_of_mem p hx)
    rw [(m4.newProps x hx').1] at hv
    exact Option.noConfusion hv
  · -- sound
    intro c v hc
    rcases m4.newOnly c v hc with h | ⟨h1, _, h3, _⟩
    · exact inv.sound c v h
    · rw [h1]
      exact HasPath.step p c dval (inv.sound p dval hd) h3
  · -- minimal
    intro c v e hc hpath
    rcases m4.newOnly c v hc with h | ⟨h1, h2, _, _⟩
    · exact inv.minimal c v e h hpath
    · have := frontier_bound inv hd hpath h2
      omega
  · -- closed
    intro c v hc hcq n hadj
    rcases m4.newOnly c v hc with h | ⟨_, _, _, h4⟩
    · by_cases hcp : c = p
      · subst hcp
        exact closure_p n hadj
      · have hcmem : c ∉ p :: rest := by
          intro hmem
          rcases List.mem_cons.mp hmem with h' | h'
          · exact hcp h'
          · exact hcq (List.mem_append.mpr (Or.inl h'))
        obtain ⟨e, he⟩ := inv.closed c v h hcmem n hadj
        exact ⟨e, m4.ext n e he⟩
    · exact absurd (List.mem_append.mpr (Or.inr h4)) hcq

/-- Running the BFS loop with sufficient fuel drains the queue while
preserving the invariant. -/
lemma bfsLoop_inv {m : Maze} {seeds : List Cell} :
    ∀ (fuel : ℕ) (dm : DMap) (q : List Cell), BfsInv m seeds dm q →
      noneCount m dm + q.length ≤ fuel →
      BfsInv m seeds (bfsLoop m fuel dm q) [] := by
  intro fuel
  induction fuel with
  | zero =>
      intro dm q inv hle
      have hq : q = [] := List.length_eq_zero.mp (by omega)
      subst hq
      exact inv
  | succ fuel ih =>
      intro dm q inv hle
      cases q with
      | nil => exact inv
      | cons p rest =>
          obtain ⟨dval, hd⟩ := inv.queueMapped p (List.mem_cons_self p rest)
          have hstep := bfs_step inv hd
          have hgd : (dm p).getD 0 = dval := by rw [hd]; rfl
          show BfsInv m seeds
            (bfsLoop m fuel (bfsProcess m p ((dm p).getD 0) (dm, rest)).1
              (bfsProcess m p ((dm p).getD 0) (dm, rest)).2) []
          rw [hgd]
          refine ih _ _ hstep ?_
          -- the measure drops by one from the dequeued cell
          have hmeas := foldl_expand_measure (m := m) (p := p) dval
            (List.range 4) (dm, rest)
          dsimp only at hmeas
          unfold bfsProcess
          simp only [List.length_cons] at hle
          omega

/-- Characterization of the seeding fold from an arbitrary start state. -/
lemma seedFold_eq (m : Maze) :
    ∀ (goals : List Cell) (dmI : DMap) (qI : List Cell),
      goals.foldl
          (fun st g =>
            if inRangeB m g = true then (updateMap st.1 g 0, st.2 ++ [g])
            else st)
          (dmI, qI) =
        (fun c =>
            if c ∈ goals.filter (fun g => inRangeB m g) then some 0 else dmI c,
          qI ++ goals.filter (fun g => inRangeB m g))
  | [], dmI, qI => by
      simp only [List.filter_nil, List.foldl_nil, List.append_nil]
      refine Prod.ext ?_ rfl
      funext c
      simp
  | g :: gs, dmI, qI => by
      rw [List.foldl_cons]
      by_cases hg : inRangeB m g = true
      · rw [if_pos hg]
        rw [seedFold_eq m gs (updateMap dmI g 0) (qI ++ [g])]
        rw [List.filter_cons_of_pos hg]
        refine Prod.ext ?_ (by simp)
        funext c
        simp only []
        by_cases h1 : c ∈ gs.filter (fun g => inRangeB m g)
        · rw [if_pos h1, if_pos (List.mem_cons_of_mem g h1)]
        · rw [if_neg h1]
          by_cases h2 : c = g
          · rw [if_pos (by rw [h2]; exact List.mem_cons_self g _)]
            simp [updateMap, h2]
          · rw [if_neg (by
              intro hmem
              rcases List.mem_cons.mp hmem with h | h
              · exact h2 h
              · exact h1 h)]
            simp [updateMap, h2]
      · rw [if_neg hg]
        rw [seedFold_eq m gs dmI qI]
        rw [List.filter_cons_of_neg (by simpa using hg)]

/-- The seeded state: in-range goals at distance `0`, queued in order. -/
lemma seedGoals_eq (m : Maze) (goals : List Cell) :
    seedGoals m goals =
      (fun c =>
          if c ∈ goals.filter (fun g => inRangeB m g) then some 0 else none,
        goals.filter (fun g => inRangeB m g)) := by
  rw [seedGoals, seedFold_eq m goals (fun _ => none) []]
  rfl

/-- The seeded state satisfies the BFS invariant. -/
lemma bfs_initial (m : Maze) (goals : List Cell) (hnd : goals.Nodup) :
    BfsInv m goals (seedGoals m goals).1 (seedGoals m goals).2 := by
  rw [seedGoals_eq]
  dsimp only
  refine ⟨?_, ?_, ?_, ?_, ?_, ?_, ?_⟩
  · intro g hg hgr
    exact ⟨0, if_pos (List.mem_filter.mpr ⟨hg, hgr⟩)⟩
  · intro p hp
    exact ⟨0, if_pos hp⟩
  · refine pairwise_of_all_eq _ (x := 0) ?_ (by omega)
    intro b hb
    rw [List.mem_map] at hb
    obtain ⟨x, hx, hfx⟩ := hb
    rw [if_pos hx] at hfx
    exact hfx.symm
  · exact hnd.filter _
  · intro c v hc
    simp only [] at hc
    split at hc
    · next hmem =>
        obtain ⟨hg, hgr⟩ := List.mem_filter.mp hmem
        rw [← Option.some.inj hc]
        exact HasPath.base c hg (by simpa using hgr)
    · exact Option.noConfusion hc
  · intro c v e hc _
    simp only [] at hc
    split at hc
    · rw [← Option.some.inj hc]
      omega
    · exact Option.noConfusion hc
  · intro c v hc hcq
    simp only [] at hc
    split at hc
    · next hmem => exact absurd hmem hcq
    · exact Option.noConfusion hc

/-- With an empty queue, every reachable cell is assigned. -/
lemma bfs_complete {m : Maze} {seeds : List Cell} {dm : DMap}
    (inv : BfsInv m seeds dm []) {c : Cell} {e : ℕ}
    (h : HasPath m seeds c e) : ∃ v, dm c = some v := by
  induction h with
  | base c hc hr => exact inv.seedsMapped c hc hr
  | step p c n _ ha ih =>
      obtain ⟨v, hv⟩ := ih
      exact inv.closed p v hv (List.not_mem_nil p) c ha

/-- The in-range, non-walled neighbor cells of a cell, in direction order
`N, E, S, W`: the cells over which the distance-field minimum of the BFS
fixed point ranges. -/
def nbrCells (m : Maze) (c : Cell) : List Cell :=
  ((List.range 4).filter fun d =>
      !(hasWall m c.1 c.2 d) && inRangeB m (stepCell c d)).map (stepCell c)

/-- Membership in `nbrCells` unfolded. -/
lemma mem_nbrCells {m : Maze} {c n : Cell} :
    n ∈ nbrCells m c ↔
      ∃ d, d < 4 ∧ hasWall m c.1 c.2 d = false ∧
        inRangeB m (stepCell c d) = true ∧ n = stepCell c d := by
  simp only [nbrCells, List.mem_map, List.mem_filter, List.mem_range,
    Bool.and_eq_true, Bool.not_eq_true']
  constructor
  · rintro ⟨d, ⟨hd, hw, hin⟩, heq⟩
    exact ⟨d, hd, hw, hin, heq.symm⟩
  · rintro ⟨d, hd, hw, hin, heq⟩
    exact ⟨d, ⟨hd, hw, hin⟩, heq.symm⟩

/-- For an in-range cell, adjacency coincides with `nbrCells`
membership. -/
lemma adj_iff_mem_nbrCells {m : Maze} {c n : Cell}
    (hc : inRangeB m c = true) : AdjB m c n ↔ n ∈ nbrCells m c := by
  rw [mem_nbrCells]
  constructor
  · rintro ⟨_, hin, d, hd, hw, hstep⟩
    exact ⟨d, hd, hw, hstep ▸ hin, hstep⟩
  · rintro ⟨d, hd, hw, hin, hstep⟩
    exact ⟨hc, hstep ▸ hin, d, hd, hw, hstep⟩

/-- The grid contains `gridSize²` cells. -/
lemma allCells_length {m : Maze} :
    (allCells m).length = m.gridSize * m.gridSize := by
  rw [allCells, List.length_flatMap]
  have : ∀ r : ℕ,
      ((List.range m.gridSize).map fun (c : ℕ) => ((r : ℤ), (c : ℤ))).length =
        m.gridSize := by
    intro r
    rw [List.length_map, List.length_range]
  have heq := List.map_congr_left (l := List.range m.gridSize)
    (f := List.length ∘ fun (r : ℕ) =>
      (List.range m.gridSize).map fun (c : ℕ) => ((r : ℤ), (c : ℤ)))
    (g := fun _ => m.gridSize) (fun r _ => this r)
  rw [heq, List.map_const', List.sum_replicate, List.length_range, smul_eq_mul]

/-- The BFS invariant holds for the completed home-return map. -/
lemma returnMap_inv (m : Maze) (hnd : (effectiveGoals m).Nodup) :
    BfsInv m (effectiveGoals m) (createGhostReturnMap m) [] := by
  have inv0 := bfs_initial m (effectiveGoals m) hnd
  refine bfsLoop_inv _ _ _ inv0 ?_
  have h1 : noneCount m (seedGoals m (effectiveGoals m)).1 ≤
      m.gridSize * m.gridSize := by
    rw [noneCount] at *
    exact le_trans (List.countP_le_length _) (le_of_eq allCells_length)
  omega

/-- Claim C1: the home-return distance field assigns `0` to every
in-range goal cell (of the effective goal set that `_create_ghost_return_map`
seeds, i.e. the session's goal set after the empty-set fallback); every
other cell reachable from the goal set through non-walled edges gets
exactly one plus the minimum of its non-walled in-range neighbors'
values; and every in-range cell unreachable from the goal set keeps the
infinity sentinel. -/
theorem C1_ghost_return_map (m : Maze) (hnd : (effectiveGoals m).Nodup) :
    (∀ g ∈ effectiveGoals m, inRangeB m g = true →
        createGhostReturnMap m g = some 0) ∧
    (∀ c, ReachableFrom m (effectiveGoals m) c → c ∉ effectiveGoals m →
        ∃ d, createGhostReturnMap m c = some d ∧
          ((nbrCells m c).filterMap fun n =>
              (createGhostReturnMap m n).map (· + 1)).min? = some d) ∧
    (∀ c, inRangeB m c = true → ¬ ReachableFrom m (effectiveGoals m) c →
        createGhostReturnMap m c = none) := by
  have inv := returnMap_inv m hnd
  set dmf := createGhostReturnMap m with hdmf
  refine ⟨?_, ?_, ?_⟩
  · -- seeds at distance 0
    intro g hg hgr
    obtain ⟨v, hv⟩ := inv.seedsMapped g hg hgr
    have : v ≤ 0 := inv.minimal g v 0 hv (HasPath.base g hg hgr)
    rw [hv]
    exact congrArg some (by omega)
  · -- interior fixed point
    rintro c ⟨e, hpath⟩ hcs
    obtain ⟨v, hv⟩ := bfs_complete inv hpath
    have hcin : inRangeB m c = true := hpath.inRange
    have hsound := inv.sound c v hv
    -- the value is positive since `c` is not a seed
    cases hsound with
    | base _ hc _ => exact absurd hc hcs
    | step p _ w hp hadj =>
        -- predecessor attains the minimum
        obtain ⟨u, hu⟩ := bfs_complete inv hp
        have hu_le : u ≤ w := inv.minimal p u w hu hp
        have hv_le : w + 1 ≤ u + 1 :=
          inv.minimal c (w + 1) (u + 1) hv
            (HasPath.step p c u (inv.sound p u hu) hadj)
        have huw : u = w := by omega
        refine ⟨w + 1, hv, ?_⟩
        rw [List.min?_eq_some_iff']
        constructor
        · -- the minimum is attained at the predecessor `p`
          rw [List.mem_filterMap]
          refine ⟨p, ?_, ?_⟩
          · exact (adj_iff_mem_nbrCells hcin).mp hadj.symm
          · rw [hu, huw]
            rfl
        · -- and every neighbor value plus one is at least the value of `c`
          intro b hb
          rw [List.mem_filterMap] at hb
          obtain ⟨n, hn, hbn⟩ := hb
          have hadjn : AdjB m c n := (adj_iff_mem_nbrCells hcin).mpr hn
          cases hnv : dmf n with
          | none => rw [hnv] at hbn; exact Option.noConfusion hbn
          | some u' =>
              rw [hnv] at hbn
              have hb_eq : b = u' + 1 := (Option.some.inj hbn).symm
              have : w + 1 ≤ u' + 1 :=
                inv.minimal c (w + 1) (u' + 1) hv
                  (HasPath.step n c u' (inv.sound n u' hnv) hadjn.symm)
              omega
  · -- unreachable cells stay at infinity
    intro c _ hns
    cases hc : dmf c with
    | none => rfl
    | some v => exact absurd ⟨v, inv.sound c v hc⟩ hns

/-- Witness for claim C1 on the concrete maze `closedMaze2`: the goal
list is duplicate-free, the goal cell gets distance `0`, and the
reachable non-goal cell `(1,1)` satisfies the minimum-plus-one fixed
point. -/
theorem C1_ghost_return_map_witness :
    (effectiveGoals closedMaze2).Nodup ∧
    createGhostReturnMap closedMaze2 (0, 0) = some 0 ∧
    (ReachableFrom closedMaze2 (effectiveGoals closedMaze2) (1, 1) ∧
      (1, 1) ∉ effectiveGoals closedMaze2 ∧
      ∃ d, createGhostReturnMap closedMaze2 (1, 1) = some d ∧
        ((nbrCells closedMaze2 (1, 1)).filterMap fun n =>
            (createGhostReturnMap closedMaze2 n).map (· + 1)).min? = some d) := by
  have hnd : (effectiveGoals closedMaze2).Nodup := by decide
  have hreach : ReachableFrom closedMaze2 (effectiveGoals closedMaze2) (1, 1) := by
    refine ⟨2, HasPath.step (1, 0) (1, 1) 1 ?_ ?_⟩
    · refine HasPath.step (0, 0) (1, 0) 0 ?_ ?_
      · exact HasPath.base (0, 0) (by decide) (by decide)
      · exact ⟨by decide, by decide, 2, by decide, by decide, by decide⟩
    · exact ⟨by decide, by decide, 1, by decide, by decide, by decide⟩
  have hns : ((1 : ℤ), (1 : ℤ)) ∉ effectiveGoals closedMaze2 := by decide
  exact ⟨hnd,
    (C1_ghost_return_map closedMaze2 hnd).1 (0, 0) (by decide) (by decide),
    hreach, hns,
    (C1_ghost_return_map closedMaze2 hnd).2.1 (1, 1) hreach hns⟩

/-! ## Ghost direction selection (`_get_ghost_next_direction`) -/

/-- The behavioral states of a ghost (`'waiting'`, `'active'`,
`'frightened'`, `'eaten'` in the source). -/
inductive GhostState
  | waiting
  | active
  | frightened
  | eaten
deriving DecidableEq

/-- A ghost record (the fields of the source's ghost dictionary used by
the decision-and-motion engine). -/
structure Ghost where
  id : Fin 4
  pos : Cell
  dir : ℕ
  state : GhostState
  reversalPending : Bool
  px : ℚ
  py : ℚ
  speed : ℚ
deriving DecidableEq

/-- `valid_moves = [d for d in range(4) if not self.has_wall(gr, gc, d)]`. -/
def validMoves (m : Maze) (r c : ℤ) : List ℕ :=
  (List.range 4).filter fun d => !(hasWall m r c d)

/-- The no-immediate-reversal filter: when more than one legal move
exists and the opposite of the current facing is among them, remove it
(`valid_moves.remove(opposite_dir)`). -/
def nonReversing (moves : List ℕ) (gdir : ℕ) : List ℕ :=
  if 1 < moves.length ∧ (gdir + 2) % 4 ∈ moves then
    moves.erase ((gdir + 2) % 4)
  else moves

/-- Squared Euclidean distance from the neighbor of `pos` in direction
`d` to `target`
(`(target_tile[0] - nr)**2 + (target_tile[1] - nc)**2`). -/
def distSqTo (target : Cell) (pos : Cell) (d : ℕ) : ℤ :=
  (target.1 - (pos.1 + DR4 d)) ^ 2 + (target.2 - (pos.2 + DC4 d)) ^ 2

/-- One iteration of the chase-branch argmin loop: candidates are tested
in the fixed order `[N4, W4, S4, E4]` and the accumulator is replaced
only on a strictly smaller squared distance. -/
def chaseStep (f : ℕ → ℤ) (cands : List ℕ) (acc : Option (ℕ × ℤ))
    (d : ℕ) : Option (ℕ × ℤ) :=
  if d ∈ cands then
    match acc with
    | none => some (d, f d)
    | some (b, mv) => if f d < mv then some (d, f d) else some (b, mv)
  else acc

/-- The chase-branch argmin loop (`best_dir, min_dist_sq = -1, inf` and
the `for d in [N4, W4, S4, E4]` loop), with `none` modelling the `-1`
sentinel. -/
def chaseFold (f : ℕ → ℤ) (cands : List ℕ) : Option (ℕ × ℤ) :=
  [N4, W4, S4, E4].foldl (chaseStep f cands) none

/-- The chase branch: argmin over the non-reversing legal moves, falling
back to the reverse direction when no candidate exists
(`return best_dir if best_dir != -1 else opposite_dir`). -/
def chaseDirection (m : Maze) (pos : Cell) (gdir : ℕ) (target : Cell) : ℕ :=
  match chaseFold (distSqTo target pos) (nonReversing (validMoves m pos.1 pos.2) gdir) with
  | some (b, _) => b
  | none => (gdir + 2) % 4

/-- The position of a direction in the fixed priority order
`N, W, S, E`. -/
def dirPriority : ℕ → ℕ
  | 0 => 0
  | 3 => 1
  | 2 => 2
  | 1 => 3
  | _ => 4

/-- Equality of `some` pairs, componentwise. -/
lemma some_pair_inj {b b' : ℕ} {mv mv' : ℤ}
    (h : (some (b, mv) : Option (ℕ × ℤ)) = some (b', mv')) :
    b = b' ∧ mv = mv' := by
  have := Option.some.inj h
  rw [Prod.mk.injEq] at this
  exact this

/-- A non-candidate direction leaves the accumulator unchanged. -/
lemma chaseStep_not_mem {f : ℕ → ℤ} {cands : List ℕ} {acc : Option (ℕ × ℤ)}
    {d : ℕ} (hd : d ∉ cands) : chaseStep f cands acc d = acc := by
  simp [chaseStep, hd]

/-- The first candidate direction fills an empty accumulator. -/
lemma chaseStep_none_mem {f : ℕ → ℤ} {cands : List ℕ} {d : ℕ}
    (hd : d ∈ cands) : chaseStep f cands none d = some (d, f d) := by
  simp [chaseStep, hd]

/-- A strictly closer candidate replaces the accumulator. -/
lemma chaseStep_some_lt {f : ℕ → ℤ} {cands : List ℕ} {b d : ℕ} {mv : ℤ}
    (hd : d ∈ cands) (hlt : f d < mv) :
    chaseStep f cands (some (b, mv)) d = some (d, f d) := by
  simp [chaseStep, hd, hlt]

/-- A candidate at least as far keeps the accumulator. -/
lemma chaseStep_some_ge {f : ℕ → ℤ} {cands : List ℕ} {b d : ℕ} {mv : ℤ}
    (hd : d ∈ cands) (hge : ¬ f d < mv) :
    chaseStep f cands (some (b, mv)) d = some (b, mv) := by
  simp [chaseStep, hd, hge]

/-- Once the accumulator is set it never returns to `none`. -/
lemma chaseFold_some_of_some {f : ℕ → ℤ} {cands : List ℕ} :
    ∀ (L : List ℕ) (b0 : ℕ) (m0 : ℤ),
      ∃ b mv, L.foldl (chaseStep f cands) (some (b0, m0)) = some (b, mv)
  | [], b0, m0 => ⟨b0, m0, rfl⟩
  | d :: L, b0, m0 => by
      rw [List.foldl_cons]
      by_cases hd : d ∈ cands
      · by_cases hlt : f d < m0
        · rw [chaseStep_some_lt hd hlt]
          exact chaseFold_some_of_some L d (f d)
        · rw [chaseStep_some_ge hd hlt]
          exact chaseFold_some_of_some L b0 m0
      · rw [chaseStep_not_mem hd]
        exact chaseFold_some_of_some L b0 m0

/-- If some candidate occurs in the scan list, the fold settles on some
direction. -/
lemma chaseFold_progress {f : ℕ → ℤ} {cands : List ℕ} :
    ∀ (L : List ℕ) (acc : Option (ℕ × ℤ)) (d : ℕ), d ∈ L → d ∈ cands →
      ∃ b mv, L.foldl (chaseStep f cands) acc = some (b, mv)
  | [], _, d, hd, _ => absurd hd (List.not_mem_nil d)
  | d' :: L, acc, d, hd, hcand => by
      rw [List.foldl_cons]
      cases acc with
      | some p =>
          obtain ⟨b0, m0⟩ := p
          rw [← List.foldl_cons]
          exact chaseFold_some_of_some (d' :: L) b0 m0
      | none =>
          by_cases hd' : d' ∈ cands
          · rw [chaseStep_none_mem hd']
            exact chaseFold_some_of_some L d' (f d')
          · rw [chaseStep_not_mem hd']
            have hdL : d ∈ L := by
              rcases List.mem_cons.mp hd with h | h
              · exact absurd (h ▸ hcand) hd'
              · exact h
            exact chaseFold_progress L none d hdL hcand

/-- The fold result is a candidate carrying its own distance. -/
lemma chaseFold_sound {f : ℕ → ℤ} {cands : List ℕ} :
    ∀ (L : List ℕ) (acc : Option (ℕ × ℤ)),
      (∀ b mv, acc = some (b, mv) → b ∈ cands ∧ mv = f b) →
      ∀ b mv, L.foldl (chaseStep f cands) acc = some (b, mv) →
        b ∈ cands ∧ mv = f b
  | [], _, hacc, b, mv, hres => hacc b mv hres
  | d :: L, acc, hacc, b, mv, hres => by
      rw [List.foldl_cons] at hres
      refine chaseFold_sound L (chaseStep f cands acc d) ?_ b mv hres
      intro b' mv' h
      by_cases hd : d ∈ cands
      · cases acc with
        | none =>
            rw [chaseStep_none_mem hd] at h
            obtain ⟨h1, h2⟩ := some_pair_inj h
            exact ⟨h1 ▸ hd, by rw [← h2, ← h1]⟩
        | some p =>
            obtain ⟨b0, m0⟩ := p
            by_cases hlt : f d < m0
            · rw [chaseStep_some_lt hd hlt] at h
              obtain ⟨h1, h2⟩ := some_pair_inj h
              exact ⟨h1 ▸ hd, by rw [← h2, ← h1]⟩
            · rw [chaseStep_some_ge hd hlt] at h
              exact hacc b' mv' h
      · rw [chaseStep_not_mem hd] at h
        exact hacc b' mv' h

/-- The fold result minimizes the distance over the scanned candidates
and never exceeds the accumulator's value. -/
lemma chaseFold_min {f : ℕ → ℤ} {cands : List ℕ} :
    ∀ (L : List ℕ) (acc : Option (ℕ × ℤ)) (b : ℕ) (mv : ℤ),
      L.foldl (chaseStep f cands) acc = some (b, mv) →
      (∀ d ∈ L, d ∈ cands → mv ≤ f d) ∧
        (∀ b0 m0, acc = some (b0, m0) → mv ≤ m0)
  | [], acc, b, mv, hres => by
      refine ⟨by simp, ?_⟩
      intro b0 m0 h
      rw [h] at hres
      exact le_of_eq (some_pair_inj hres).2.symm
  | d :: L, acc, b, mv, hres => by
      rw [List.foldl_cons] at hres
      by_cases hd : d ∈ cands
      · cases acc with
        | none =>
            rw [chaseStep_none_mem hd] at hres
            have ih := chaseFold_min L (some (d, f d)) b mv hres
            refine ⟨?_, by simp⟩
            intro d' hd' hcand'
            rcases List.mem_cons.mp hd' with h | h
            · exact h ▸ ih.2 d (f d) rfl
            · exact ih.1 d' h hcand'
        | some p =>
            obtain ⟨b0, m0⟩ := p
            by_cases hlt : f d < m0
            · rw [chaseStep_some_lt hd hlt] at hres
              have ih := chaseFold_min L (some (d, f d)) b mv hres
              have hmv : mv ≤ f d := ih.2 d (f d) rfl
              refine ⟨?_, ?_⟩
              · intro d' hd' hcand'
                rcases List.mem_cons.mp hd' with h | h
                · exact h ▸ hmv
                · exact ih.1 d' h hcand'
              · intro b0' m0' h0
                obtain ⟨_, h2⟩ := some_pair_inj h0
                omega
            · rw [chaseStep_some_ge hd hlt] at hres
              have ih := chaseFold_min L (some (b0, m0)) b mv hres
              have hmv : mv ≤ m0 := ih.2 b0 m0 rfl
              refine ⟨?_, ?_⟩
              · intro d' hd' hcand'
                rcases List.mem_cons.mp hd' with h | h
                · subst h
                  omega
                · exact ih.1 d' h hcand'
              · intro b0' m0' h0
                obtain ⟨_, h2⟩ := some_pair_inj h0
                omega
      · rw [chaseStep_not_mem hd] at hres
        have ih := chaseFold_min L acc b mv hres
        refine ⟨?_, ih.2⟩
        intro d' hd' hcand'
        rcases List.mem_cons.mp hd' with h | h
        · exact absurd (h ▸ hcand') hd
        · exact ih.1 d' h hcand'

/-- From a set accumulator, the fold either keeps it or switches to a
strictly closer candidate; in the latter case every earlier scanned
candidate is strictly farther. -/
lemma chaseFold_first_some {f : ℕ → ℤ} {cands : List ℕ} :
    ∀ (L : List ℕ) (b0 : ℕ) (m0 : ℤ) (b : ℕ) (mv : ℤ),
      L.foldl (chaseStep f cands) (some (b0, m0)) = some (b, mv) →
      (b = b0 ∧ mv = m0) ∨
        (∃ L1 L2, L = L1 ++ b :: L2 ∧ b ∈ cands ∧ mv = f b ∧ mv < m0 ∧
          ∀ d ∈ L1, d ∈ cands → mv < f d)
  | [], b0, m0, b, mv, h =>
      Or.inl ⟨(some_pair_inj h).1.symm, (some_pair_inj h).2.symm⟩
  | d :: L, b0, m0, b, mv, h => by
      rw [List.foldl_cons] at h
      by_cases hd : d ∈ cands
      · by_cases hlt : f d < m0
        · rw [chaseStep_some_lt hd hlt] at h
          rcases chaseFold_first_some L d (f d) b mv h with
            ⟨hb, hm⟩ | ⟨L1, L2, hL, hbc, hmf, hlt', hall⟩
          · right
            refine ⟨[], L, by simp [hb], hb ▸ hd, by rw [hm, hb], by omega, by simp⟩
          · right
            refine ⟨d :: L1, L2, by rw [hL]; rfl, hbc, hmf, by omega, ?_⟩
            intro x hx hcx
            rcases List.mem_cons.mp hx with hh | hh
            · subst hh
              exact hlt'
            · exact hall x hh hcx
        · rw [chaseStep_some_ge hd hlt] at h
          rcases chaseFold_first_some L b0 m0 b mv h with
            ⟨hb, hm⟩ | ⟨L1, L2, hL, hbc, hmf, hlt', hall⟩
          · exact Or.inl ⟨hb, hm⟩
          · right
            refine ⟨d :: L1, L2, by rw [hL]; rfl, hbc, hmf, hlt', ?_⟩
            intro x hx hcx
            rcases List.mem_cons.mp hx with hh | hh
            · subst hh
              omega
            · exact hall x hh hcx
      · rw [chaseStep_not_mem hd] at h
        rcases chaseFold_first_some L b0 m0 b mv h with
          ⟨hb, hm⟩ | ⟨L1, L2, hL, hbc, hmf, hlt', hall⟩
        · exact Or.inl ⟨hb, hm⟩
        · right
          refine ⟨d :: L1, L2, by rw [hL]; rfl, hbc, hmf, hlt', ?_⟩
          intro x hx hcx
          rcases List.mem_cons.mp hx with hh | hh
          · exact absurd (hh ▸ hcx) hd
          · exact hall x hh hcx

/-- The fold from an empty accumulator settles on the first candidate of
the scan order attaining the minimum: every earlier scanned candidate is
strictly farther. -/
lemma chaseFold_first_none {f : ℕ → ℤ} {cands : List ℕ} :
    ∀ (L : List ℕ) (b : ℕ) (mv : ℤ),
      L.foldl (chaseStep f cands) none = some (b, mv) →
      ∃ L1 L2, L = L1 ++ b :: L2 ∧ b ∈ cands ∧ mv = f b ∧
        ∀ d ∈ L1, d ∈ cands → mv < f d
  | [], b, mv, h => Option.noConfusion h
  | d :: L, b, mv, h => by
      rw [List.foldl_cons] at h
      by_cases hd : d ∈ cands
      · rw [chaseStep_none_mem hd] at h
        rcases chaseFold_first_some L d (f d) b mv h with
          ⟨hb, hm⟩ | ⟨L1, L2, hL, hbc, hmf, hlt', hall⟩
        · exact ⟨[], L, by simp [hb], hb ▸ hd, by rw [hm, hb], by simp⟩
        · refine ⟨d :: L1, L2, by rw [hL]; rfl, hbc, hmf, ?_⟩
          intro x hx hcx
          rcases List.mem_cons.mp hx with hh | hh
          · subst hh
            exact hlt'
          · exact hall x hh hcx
      · rw [chaseStep_not_mem hd] at h
        obtain ⟨L1, L2, hL, hbc, hmf, hall⟩ := chaseFold_first_none L b mv h
        refine ⟨d :: L1, L2, by rw [hL]; rfl, hbc, hmf, ?_⟩
        intro x hx hcx
        rcases List.mem_cons.mp hx with hh | hh
        · exact absurd (hh ▸ hcx) hd
        · exact hall x hh hcx

/-- Splitting the priority list around the chosen direction bounds its
priority by that of every direction at or after it. -/
lemma prio_of_split {L1 L2 : List ℕ} {b d : ℕ}
    (hL : L1 ++ b :: L2 = [N4, W4, S4, E4]) (hd : d ∈ b :: L2) :
    dirPriority b ≤ dirPriority d := by
  rcases L1 with _ | ⟨a1, L1⟩
  · rw [List.nil_append] at hL
    obtain ⟨hb, hrest⟩ := List.cons.inj hL
    subst hb
    rw [hrest] at hd
    fin_cases hd <;> decide
  rcases L1 with _ | ⟨a2, L1⟩
  · rw [List.cons_append, List.nil_append] at hL
    obtain ⟨_, hL⟩ := List.cons.inj hL
    obtain ⟨hb, hrest⟩ := List.cons.inj hL
    subst hb
    rw [hrest] at hd
    fin_cases hd <;> decide
  rcases L1 with _ | ⟨a3, L1⟩
  · rw [List.cons_append, List.cons_append, List.nil_append] at hL
    obtain ⟨_, hL⟩ := List.cons.inj hL
    obtain ⟨_, hL⟩ := List.cons.inj hL
    obtain ⟨hb, hrest⟩ := List.cons.inj hL
    subst hb
    rw [hrest] at hd
    fin_cases hd <;> decide
  rcases L1 with _ | ⟨a4, L1⟩
  · rw [List.cons_append, List.cons_append, List.cons_append,
      List.nil_append] at hL
    obtain ⟨_, hL⟩ := List.cons.inj hL
    obtain ⟨_, hL⟩ := List.cons.inj hL
    obtain ⟨_, hL⟩ := List.cons.inj hL
    obtain ⟨hb, hrest⟩ := List.cons.inj hL
    subst hb
    rw [hrest] at hd
    fin_cases hd
    decide
  · exfalso
    have := congrArg List.length hL
    simp only [List.length_append, List.length_cons, List.length_nil] at this
    omega

/-- Every candidate direction is one of the four scanned directions. -/
lemma cands_subset_prio {m : Maze} {r c : ℤ} {gdir d : ℕ}
    (hd : d ∈ nonReversing (validMoves m r c) gdir) :
    d ∈ [N4, W4, S4, E4] := by
  have hd4 : d < 4 := by
    have : d ∈ validMoves m r c := by
      unfold nonReversing at hd
      split at hd
      · exact List.mem_of_mem_erase hd
      · exact hd
    unfold validMoves at this
    rw [List.mem_filter] at this
    exact List.mem_range.mp this.1
  interval_cases d <;> decide

/-- Float comparison `map[nr, nc] < current_dist` with `inf` modelled as
`none`: `inf < inf` and `inf < x` are false, `x < inf` is true. -/
def optLt (a b : Option ℕ) : Bool :=
  match a, b with
  | some x, some y => decide (x < y)
  | some _, none => true
  | none, _ => false

/-- A numpy index into one axis of the `gridSize × gridSize` array:
negative indices wrap from the end; an index beyond either bound raises
`IndexError` (modelled `none`; unreachable on closed-boundary mazes). -/
def wrapIdx (gs : ℕ) (i : ℤ) : Option ℤ :=
  if 0 ≤ i ∧ i < (gs : ℤ) then some i
  else if -(gs : ℤ) ≤ i ∧ i < 0 then some (i + gs) else none

/-- `self.ghost_return_map[r, c]` with numpy index semantics. -/
def npAt (m : Maze) (dm : DMap) (r c : ℤ) : Option ℕ :=
  match wrapIdx m.gridSize r, wrapIdx m.gridSize c with
  | some rw, some cw => dm (rw, cw)
  | _, _ => none

/-- Per-personality target tile of the chase branch: Blinky targets the
player, Pinky four tiles ahead (with the classic extra `- 4` column shift
when the player faces north), Inky doubles the vector from Blinky to two
tiles ahead of the player, Clyde targets the player when far (squared
distance over 64) and the bottom-left corner otherwise. -/
def ghostTarget (m : Maze) (g : Ghost) (pacPos : Cell) (pacDir : ℕ)
    (blinkyPos : Option Cell) : Cell :=
  if g.id = 0 then pacPos
  else if g.id = 1 then
    if pacDir = N4 then
      (pacPos.1 + 4 * DR4 pacDir, pacPos.2 + 4 * DC4 pacDir - 4)
    else (pacPos.1 + 4 * DR4 pacDir, pacPos.2 + 4 * DC4 pacDir)
  else if g.id = 2 then
    match blinkyPos with
    | some bp =>
        (pacPos.1 + 2 * DR4 pacDir + (pacPos.1 + 2 * DR4 pacDir - bp.1),
          pacPos.2 + 2 * DC4 pacDir + (pacPos.2 + 2 * DC4 pacDir - bp.2))
    | none => pacPos
  else
    if 64 < (g.pos.1 - pacPos.1) ^ 2 + (g.pos.2 - pacPos.2) ^ 2 then pacPos
    else ((m.gridSize : ℤ) - 1, 0)

/-- `_get_ghost_next_direction`: in the eaten state, follow the first
direction (in order `N, W, S, E`) whose open neighbor has a strictly
smaller home-return value, else keep facing; in the frightened state,
pick randomly (`pick`) among the non-reversing legal moves, falling back
to the reverse when no legal move exists; otherwise chase the
personality target. -/
def getGhostNextDirection (m : Maze) (rmap : DMap) (pick : List ℕ → ℕ)
    (g : Ghost) (pacPos : Cell) (pacDir : ℕ) (blinkyPos : Option Cell) : ℕ :=
  if g.state = GhostState.eaten then
    ([N4, W4, S4, E4].find? fun d =>
        !(hasWall m g.pos.1 g.pos.2 d) &&
          optLt (npAt m rmap (g.pos.1 + DR4 d) (g.pos.2 + DC4 d))
            (npAt m rmap g.pos.1 g.pos.2)).getD g.dir
  else if g.state = GhostState.frightened then
    let cands := nonReversing (validMoves m g.pos.1 g.pos.2) g.dir
    if cands.isEmpty then (g.dir + 2) % 4 else pick cands
  else
    chaseDirection m g.pos g.dir (ghostTarget m g pacPos pacDir blinkyPos)

/-- Claim C4: in the chase branch, among the legal non-reversing
candidates the chosen direction minimizes the squared Euclidean distance
of the resulting neighbor to the target tile, and any candidate at the
same distance comes no earlier in the fixed priority order `N, W, S, E`. -/
theorem C4_chase_min_tiebreak (m : Maze) (pos : Cell) (gdir : ℕ)
    (target : Cell)
    (hne : nonReversing (validMoves m pos.1 pos.2) gdir ≠ []) :
    chaseDirection m pos gdir target ∈
      nonReversing (validMoves m pos.1 pos.2) gdir ∧
    (∀ d ∈ nonReversing (validMoves m pos.1 pos.2) gdir,
      distSqTo target pos (chaseDirection m pos gdir target) ≤
        distSqTo target pos d) ∧
    (∀ d ∈ nonReversing (validMoves m pos.1 pos.2) gdir,
      distSqTo target pos d =
          distSqTo target pos (chaseDirection m pos gdir target) →
      dirPriority (chaseDirection m pos gdir target) ≤ dirPriority d) := by
  set cands := nonReversing (validMoves m pos.1 pos.2) gdir with hcands
  set f := distSqTo target pos with hf
  obtain ⟨d0, hd0⟩ := List.exists_mem_of_ne_nil cands hne
  obtain ⟨b, mv, hfold⟩ :=
    chaseFold_progress (f := f) [N4, W4, S4, E4] none d0
      (cands_subset_prio hd0) hd0
  have hsel : chaseDirection m pos gdir target = b := by
    unfold chaseDirection
    rw [← hcands, ← hf]
    show (match chaseFold f cands with
      | some (b, _) => b
      | none => (gdir + 2) % 4) = b
    rw [show chaseFold f cands = some (b, mv) from hfold]
  have hsound := chaseFold_sound [N4, W4, S4, E4] none (by simp) b mv hfold
  have hmin := chaseFold_min [N4, W4, S4, E4] none b mv hfold
  obtain ⟨L1, L2, hL, _, hmf, hall⟩ :=
    chaseFold_first_none [N4, W4, S4, E4] b mv hfold
  rw [hsel]
  refine ⟨hsound.1, ?_, ?_⟩
  · intro d hd
    rw [← hsound.2]
    exact hmin.1 d (cands_subset_prio hd) hd
  · intro d hd heq
    have hdp : d ∈ [N4, W4, S4, E4] := cands_subset_prio hd
    rw [hL] at hdp
    rcases List.mem_append.mp hdp with h | h
    · exfalso
      have := hall d h hd
      rw [hmf] at this
      omega
    · exact prio_of_split hL.symm h

/-- Witness for claim C4: in `closedMaze2` at `(1,0)` facing east, the
two candidates `N` and `E` are tied at squared distance `1` to the
target `(0,1)`, and the selection lands on `N`, the earlier direction in
the priority order. -/
theorem C4_chase_min_tiebreak_witness :
    nonReversing (validMoves closedMaze2 1 0) E4 ≠ [] ∧
    (chaseDirection closedMaze2 (1, 0) E4 (0, 1) ∈
        nonReversing (validMoves closedMaze2 1 0) E4 ∧
      (∀ d ∈ nonReversing (validMoves closedMaze2 1 0) E4,
        distSqTo (0, 1) (1, 0) (chaseDirection closedMaze2 (1, 0) E4 (0, 1)) ≤
          distSqTo (0, 1) (1, 0) d) ∧
      (∀ d ∈ nonReversing (validMoves closedMaze2 1 0) E4,
        distSqTo (0, 1) (1, 0) d =
            distSqTo (0, 1) (1, 0) (chaseDirection closedMaze2 (1, 0) E4 (0, 1)) →
        dirPriority (chaseDirection closedMaze2 (1, 0) E4 (0, 1)) ≤
          dirPriority d)) ∧
    chaseDirection closedMaze2 (1, 0) E4 (0, 1) = N4 :=
  ⟨by decide, C4_chase_min_tiebreak closedMaze2 (1, 0) E4 (0, 1) (by decide),
    by decide⟩

/-- Claim C3, counterexample.  An eaten ghost at `(1,0)` of `closedMaze2`
facing south reverses to `N4` (the strictly descending direction of the
home-return field) although `E4` is also legal: the eaten branch ignores
the no-reversal rule, so direction selection does not avoid reversal in
every behavioral state. -/
theorem C3_counterexample :
    getGhostNextDirection closedMaze2 (createGhostReturnMap closedMaze2)
        (fun l => l.headD 0)
        ⟨0, (1, 0), S4, GhostState.eaten, false, 0, 0, 0⟩ (1, 1) E4 none = N4 ∧
    N4 = (S4 + 2) % 4 ∧
    E4 ∈ validMoves closedMaze2 1 0 ∧ E4 ≠ N4 := by
  refine ⟨by decide, by decide, by decide, by decide⟩

/-- A 2×2 maze whose only opening is the corridor between `(1,0)` and
`(0,0)`. -/
def corridorMaze : Maze :=
  { gridSize := 2
    hWalls := [[true, true], [false, false], [true, true]]
    vWalls := [[true, true, true], [true, true, true]]
    startCell := (1, 0)
    goalCells := [(0, 0)] }

/-- The default element of a nonempty list is its head. -/
lemma headD_mem : ∀ (l : List ℕ), l ≠ [] → l.headD 0 ∈ l
  | [], h => absurd rfl h
  | a :: t, _ => List.mem_cons_self a t

/-- A nonempty move list stays nonempty after the reversal filter. -/
lemma nonReversing_ne_nil {moves : List ℕ} (gdir : ℕ) (hne : moves ≠ []) :
    nonReversing moves gdir ≠ [] := by
  unfold nonReversing
  split
  · next hcond =>
      intro h
      have := congrArg List.length h
      rw [List.length_erase_of_mem hcond.2] at this
      simp only [List.length_nil] at this
      omega
  · exact hne

/-- If the reverse direction survives the reversal filter on a
duplicate-free move list, it was the only legal move. -/
lemma nonReversing_opp {moves : List ℕ} {gdir : ℕ} (hnd : moves.Nodup)
    (hmem : (gdir + 2) % 4 ∈ nonReversing moves gdir) :
    moves = [(gdir + 2) % 4] := by
  unfold nonReversing at hmem
  split at hmem
  · next hcond =>
      rw [hnd.mem_erase_iff] at hmem
      exact absurd rfl hmem.1
  · next hcond =>
      rw [not_and_or] at hcond
      rcases hcond with h | h
      · have hlen : moves.length = 1 := by
          have : 1 ≤ moves.length := List.length_pos.mpr (by
            intro hnil
            rw [hnil] at hmem
            exact List.not_mem_nil _ hmem)
          omega
        obtain ⟨a, ha⟩ := List.length_eq_one.mp hlen
        rw [ha] at hmem ⊢
        rw [List.mem_singleton] at hmem
        rw [hmem]
      · exact absurd hmem h

/-- The legal move list has no duplicates. -/
lemma validMoves_nodup (m : Maze) (r c : ℤ) : (validMoves m r c).Nodup :=
  (List.nodup_range 4).filter _

/-- Claim C3, amended: outside the eaten state, whenever direction
selection returns the reverse of the ghost's current facing, either no
legal move exists at all (the fallback) or the reverse is the only legal
move; the eaten state follows the descending distance field and may
reverse freely. -/
theorem C3_no_reversal_amended (m : Maze) (rmap : DMap) (pick : List ℕ → ℕ)
    (g : Ghost) (pacPos : Cell) (pacDir : ℕ) (blinkyPos : Option Cell)
    (hpick : ∀ l : List ℕ, l ≠ [] → pick l ∈ l)
    (hstate : g.state ≠ GhostState.eaten)
    (hres : getGhostNextDirection m rmap pick g pacPos pacDir blinkyPos =
      (g.dir + 2) % 4) :
    validMoves m g.pos.1 g.pos.2 = [] ∨
      validMoves m g.pos.1 g.pos.2 = [(g.dir + 2) % 4] := by
  unfold getGhostNextDirection at hres
  rw [if_neg hstate] at hres
  by_cases hfright : g.state = GhostState.frightened
  · rw [if_pos hfright] at hres
    by_cases hemp : (nonReversing (validMoves m g.pos.1 g.pos.2) g.dir).isEmpty
    · left
      by_contra hmne
      exact nonReversing_ne_nil g.dir hmne (List.isEmpty_iff.mp hemp)
    · rw [if_neg hemp] at hres
      have hmem := hpick _ fun h =>
        hemp (by rw [show nonReversing (validMoves m g.pos.1 g.pos.2) g.dir
          = [] from h]; rfl)
      rw [hres] at hmem
      exact Or.inr (nonReversing_opp (validMoves_nodup m g.pos.1 g.pos.2) hmem)
  · rw [if_neg hfright] at hres
    unfold chaseDirection at hres
    cases hcf : chaseFold
        (distSqTo (ghostTarget m g pacPos pacDir blinkyPos) g.pos)
        (nonReversing (validMoves m g.pos.1 g.pos.2) g.dir) with
    | none =>
        left
        by_contra hmne
        obtain ⟨d0, hd0⟩ := List.exists_mem_of_ne_nil _
          (nonReversing_ne_nil g.dir hmne)
        obtain ⟨b, mv, hfold⟩ := chaseFold_progress [N4, W4, S4, E4] none d0
          (cands_subset_prio hd0) hd0
        rw [show chaseFold
          (distSqTo (ghostTarget m g pacPos pacDir blinkyPos) g.pos)
          (nonReversing (validMoves m g.pos.1 g.pos.2) g.dir)
          = some (b, mv) from hfold] at hcf
        exact Option.noConfusion hcf
    | some p =>
        obtain ⟨b, mv⟩ := p
        rw [hcf] at hres
        have hb : b = (g.dir + 2) % 4 := hres
        have hsound := chaseFold_sound [N4, W4, S4, E4] none (by simp) b mv hcf
        rw [hb] at hsound
        exact Or.inr
          (nonReversing_opp (validMoves_nodup m g.pos.1 g.pos.2) hsound.1)

/-- Witness for the amended claim C3: in `corridorMaze` the frightened
ghost at `(1,0)` facing south has north — its reverse — as the single
legal move, and the selection returns it. -/
theorem C3_no_reversal_amended_witness :
    ((∀ l : List ℕ, l ≠ [] → l.headD 0 ∈ l) ∧
      GhostState.frightened ≠ GhostState.eaten ∧
      getGhostNextDirection corridorMaze (fun _ => none) (fun l => l.headD 0)
          ⟨0, (1, 0), S4, GhostState.frightened, false, 0, 0, 0⟩
          (1, 1) E4 none = (S4 + 2) % 4) ∧
    (validMoves corridorMaze 1 0 = [] ∨
      validMoves corridorMaze 1 0 = [(S4 + 2) % 4]) :=
  ⟨⟨headD_mem, by decide, by decide⟩,
    C3_no_reversal_amended corridorMaze (fun _ => none) (fun l => l.headD 0)
      ⟨0, (1, 0), S4, GhostState.frightened, false, 0, 0, 0⟩
      (1, 1) E4 none headD_mem (by decide) (by decide)⟩

/-! ## Motion integration (`_pacman_game_loop`, movement sections) -/

/-- The canvas margin constant. -/
def MARGIN : ℚ := 25

/-- `cell_center_to_pixel(r, c)`: the pixel center of a cell at the
current visual cell size `s`. -/
def cellCenterToPixel (s : ℚ) (r c : ℤ) : ℚ × ℚ :=
  (MARGIN + ((c : ℚ) + 1 / 2) * s, MARGIN + ((r : ℚ) + 1 / 2) * s)

/-- The pixel center of the next cell in direction `dir`. -/
def nextCenter (s : ℚ) (pos : Cell) (dir : ℕ) : ℚ × ℚ :=
  cellCenterToPixel s (stepCell pos dir).1 (stepCell pos dir).2

/-- The player's arrival condition: a directional reached-or-passed
comparison of the continuous coordinate against the next cell's center
along the axis of motion (source lines 515-516). -/
def reachedOrPassed (dir : ℕ) (px py cx cy : ℚ) : Bool :=
  decide ((dir = E4 ∧ cx ≤ px) ∨ (dir = W4 ∧ px ≤ cx) ∨
    (dir = S4 ∧ cy ≤ py) ∨ (dir = N4 ∧ py ≤ cy))

/-- The player's per-tick movement fragment: advance the continuous
position by `move` along the facing, then snap to the next cell's center
when the directional comparison fires.  Returns the new discrete cell,
continuous position and moving flag. -/
def pacmanMoveStep (s : ℚ) (pos : Cell) (dir : ℕ) (px py move : ℚ) :
    Cell × ℚ × ℚ × Bool :=
  if reachedOrPassed dir (px + (DC4 dir : ℚ) * move)
      (py + (DR4 dir : ℚ) * move) (nextCenter s pos dir).1
      (nextCenter s pos dir).2 then
    (stepCell pos dir, (nextCenter s pos dir).1, (nextCenter s pos dir).2,
      false)
  else (pos, px + (DC4 dir : ℚ) * move, py + (DR4 dir : ℚ) * move, true)

/-- A ghost's per-tick movement fragment: advance the continuous
position, then snap to the next cell's center when the squared distance
from the post-move position to that center is at most the squared
distance moved this tick (source lines 540-545). -/
def ghostMoveStep (s : ℚ) (pos : Cell) (dir : ℕ) (px py move : ℚ) :
    Cell × ℚ × ℚ × Bool :=
  if (px + (DC4 dir : ℚ) * move - (nextCenter s pos dir).1) ^ 2 +
        (py + (DR4 dir : ℚ) * move - (nextCenter s pos dir).2) ^ 2 ≤
      move ^ 2 then
    (stepCell pos dir, (nextCenter s pos dir).1, (nextCenter s pos dir).2,
      false)
  else (pos, px + (DC4 dir : ℚ) * move, py + (DR4 dir : ℚ) * move, true)

/-- The concrete next-cell center used by the motion examples. -/
lemma nextCenter_E_example : nextCenter 10 (0, 0) E4 = (40, 30) := by
  unfold nextCenter cellCenterToPixel stepCell MARGIN
  rw [Prod.mk.injEq]
  constructor <;> norm_num [E4, DC4, DR4]

/-- Claim C5, counterexample.  A ghost moving east at cell size `10` from
continuous position `38.5` with a per-tick move of `1` ends at `39.5`,
short of the next center `40`, so the directional reached-or-passed
comparison is false — yet the ghost's distance test detects arrival and
snaps it forward to the center: ghost arrival is a distance test, not the
directional comparison claimed for every agent. -/
theorem C5_counterexample :
    (ghostMoveStep 10 (0, 0) E4 (77 / 2) 30 1).2.2.2 = false ∧
    (ghostMoveStep 10 (0, 0) E4 (77 / 2) 30 1).1 = (0, 1) ∧
    (ghostMoveStep 10 (0, 0) E4 (77 / 2) 30 1).2.1 = 40 ∧
    (77 / 2 : ℚ) + (DC4 E4 : ℚ) * 1 = 79 / 2 ∧
    nextCenter 10 (0, 0) E4 = (40, 30) ∧
    reachedOrPassed E4 (79 / 2) 30 40 30 = false := by
  have harr : (ghostMoveStep 10 (0, 0) E4 (77 / 2) 30 1) =
      (stepCell (0, 0) E4, (nextCenter 10 (0, 0) E4).1,
        (nextCenter 10 (0, 0) E4).2, false) := by
    unfold ghostMoveStep
    rw [if_pos (by rw [nextCenter_E_example]; norm_num [E4, DC4, DR4])]
  refine ⟨by rw [harr], ?_, ?_, by norm_num [E4, DC4], nextCenter_E_example, ?_⟩
  · rw [harr]
    norm_num [stepCell, E4, DC4, DR4]
  · rw [harr, nextCenter_E_example]
  · unfold reachedOrPassed
    rw [decide_eq_false_iff_not]
    rintro (⟨_, h⟩ | ⟨h, _⟩ | ⟨h, _⟩ | ⟨h, _⟩)
    · norm_num at h
    · exact absurd h (by norm_num [E4, W4])
    · exact absurd h (by norm_num [E4, S4])
    · exact absurd h (by norm_num [E4, N4])

/-- Claim C5, amended: the player's arrival is decided by the directional
reached-or-passed comparison; each ghost's arrival is decided by a
squared-distance-to-center test against the distance moved this tick; in
both cases, on arrival the agent's discrete cell becomes the next cell
and its continuous position is set exactly to that cell's center. -/
theorem C5_motion_amended (s : ℚ) (pos : Cell) (dir : ℕ) (px py move : ℚ) :
    ((pacmanMoveStep s pos dir px py move).2.2.2 = false ↔
      reachedOrPassed dir (px + (DC4 dir : ℚ) * move)
        (py + (DR4 dir : ℚ) * move) (nextCenter s pos dir).1
        (nextCenter s pos dir).2 = true) ∧
    ((ghostMoveStep s pos dir px py move).2.2.2 = false ↔
      (px + (DC4 dir : ℚ) * move - (nextCenter s pos dir).1) ^ 2 +
          (py + (DR4 dir : ℚ) * move - (nextCenter s pos dir).2) ^ 2 ≤
        move ^ 2) ∧
    ((pacmanMoveStep s pos dir px py move).2.2.2 = false →
      (pacmanMoveStep s pos dir px py move).1 = stepCell pos dir ∧
      ((pacmanMoveStep s pos dir px py move).2.1,
        (pacmanMoveStep s pos dir px py move).2.2.1) = nextCenter s pos dir) ∧
    ((ghostMoveStep s pos dir px py move).2.2.2 = false →
      (ghostMoveStep s pos dir px py move).1 = stepCell pos dir ∧
      ((ghostMoveStep s pos dir px py move).2.1,
        (ghostMoveStep s pos dir px py move).2.2.1) = nextCenter s pos dir) := by
  unfold pacmanMoveStep ghostMoveStep
  refine ⟨?_, ?_, ?_, ?_⟩
  · split
    · next h => simp [h]
    · next h => simp [h]
  · split
    · next h => simp [h]
    · next h => simp [h]
  · split
    · exact fun _ => ⟨rfl, rfl⟩
    · intro h
      exact absurd h (by simp)
  · split
    · exact fun _ => ⟨rfl, rfl⟩
    · intro h
      exact absurd h (by simp)

/-- Witness for the amended claim C5: the player moving east from `39`
with move `1` reaches the center `40` exactly; the theorem yields the
snap to the next cell's center, and the directional condition holds. -/
theorem C5_motion_amended_witness :
    ((pacmanMoveStep 10 (0, 0) E4 39 30 1).2.2.2 = false) ∧
    ((pacmanMoveStep 10 (0, 0) E4 39 30 1).1 = stepCell (0, 0) E4 ∧
      ((pacmanMoveStep 10 (0, 0) E4 39 30 1).2.1,
        (pacmanMoveStep 10 (0, 0) E4 39 30 1).2.2.1) = nextCenter 10 (0, 0) E4) := by
  have hreached : reachedOrPassed E4 ((39 : ℚ) + (DC4 E4 : ℚ) * 1)
      ((30 : ℚ) + (DR4 E4 : ℚ) * 1) (nextCenter 10 (0, 0) E4).1
      (nextCenter 10 (0, 0) E4).2 = true := by
    unfold reachedOrPassed
    rw [decide_eq_true_eq, nextCenter_E_example]
    exact Or.inl ⟨rfl, by norm_num [E4, DC4]⟩
  exact ⟨(C5_motion_amended 10 (0, 0) E4 39 30 1).1.mpr hreached,
    (C5_motion_amended 10 (0, 0) E4 39 30 1).2.2.1
      ((C5_motion_amended 10 (0, 0) E4 39 30 1).1.mpr hreached)⟩

/-! ## Game-loop state transitions -/

/-- The fraction of initial consumable markers already eaten, with the
explicit zero-check of the source (used identically at lines 331-332 for
the siren and 507-508 for the speed ramp):
`pellets_eaten / initial if initial > 0 else 0`. -/
def percentEaten (initial remP remPP : ℕ) : ℚ :=
  if 0 < initial then
    (((initial : ℤ) - ((remP : ℤ) + (remPP : ℤ)) : ℤ) : ℚ) / (initial : ℚ)
  else 0

/-- Python `int()` truncation toward zero of an exact rational. -/
def pyInt (x : ℚ) : ℤ := Int.tdiv x.num (x.den : ℤ)

/-- The per-ghost effect of a siren tier advance (`_start_ghost_siren`,
lines 344-346): every ghost currently in the active state gets its
deferred-reversal flag raised. -/
def sirenReversalUpdate (g : Ghost) : Ghost :=
  if g.state = GhostState.active then {g with reversalPending := true} else g

/-- The per-ghost effect of evasion-timer expiry (lines 551-552): every
frightened ghost reverts to active. -/
def expiryFlipUpdate (g : Ghost) : Ghost :=
  if g.state = GhostState.frightened then {g with state := GhostState.active}
  else g

/-- `_start_ghost_siren` (source lines 326-350), restricted to its
engine-visible effects: guarded by pygame availability, the death flag
and a positive frightened timer, it computes the target siren tier from
the fraction of markers eaten (the float ratio and the multiplier `1.05`
are modelled by exact rationals), and when the tier index must change
while one was already playing it bumps the ghost speed multiplier and
raises the deferred-reversal flag of every active ghost.  Returns the
new sound index, speed multiplier and ghost list; the audio calls
themselves are external.  `sirenTargetIdx` is the target tier
`min(int(percent_eaten * num_sounds), num_sounds - 1)`. -/
def sirenTargetIdx (initial remP remPP numSounds : ℕ) : ℤ :=
  if 0 < numSounds then
    min (pyInt (percentEaten initial remP remPP * (numSounds : ℚ)))
      ((numSounds : ℤ) - 1)
  else 0

/-- The siren state machine proper (see the section comment above). -/
def startGhostSiren (pyg dying : Bool) (timer : ℚ)
    (initial remP remPP numSounds : ℕ) (curIdx : ℤ) (busy : Bool)
    (speedMult : ℚ) (ghosts : List Ghost) : ℤ × ℚ × List Ghost :=
  if pyg = false ∨ dying = true ∨ 0 < timer then (curIdx, speedMult, ghosts)
  else if curIdx ≠ sirenTargetIdx initial remP remPP numSounds ∨
      busy = false then
    if curIdx ≠ sirenTargetIdx initial remP remPP numSounds ∧ curIdx ≠ -1 then
      (sirenTargetIdx initial remP remPP numSounds, speedMult * (21 / 20),
        ghosts.map sirenReversalUpdate)
    else (sirenTargetIdx initial remP remPP numSounds, speedMult, ghosts)
  else (curIdx, speedMult, ghosts)

/-- The frightened-timer update of the game loop (source lines 547-553):
when positive, decrement the timer by the clamped delta; on crossing
zero, reset the ghost-eaten bonus to `200`, stop the siren channel and
restart the siren (which may raise deferred-reversal flags on active
ghosts), then flip every frightened ghost back to active; with the
timer already non-positive, only the siren runs.  Returns the new
timer, bonus, sound index, speed multiplier and ghost list.  The
channel `stop()` preceding the siren call on the expiry tick makes its
`get_busy()` false there, so that branch passes `false` for the busy
flag. -/
def frightenedExpiryStep (pyg dying : Bool)
    (initial remP remPP numSounds : ℕ) (curIdx : ℤ) (busy : Bool)
    (speedMult : ℚ) (timer dt : ℚ) (bonus : ℤ) (ghosts : List Ghost) :
    ℚ × ℤ × ℤ × ℚ × List Ghost :=
  if 0 < timer then
    if timer - dt ≤ 0 then
      let s := startGhostSiren pyg dying (timer - dt) initial remP remPP
        numSounds curIdx false speedMult ghosts
      (timer - dt, 200, s.1, s.2.1, s.2.2.map expiryFlipUpdate)
    else (timer - dt, bonus, curIdx, speedMult, ghosts)
  else
    let s := startGhostSiren pyg dying timer initial remP remPP numSounds
      curIdx busy speedMult ghosts
    (timer, bonus, s.1, s.2.1, s.2.2)

/-- The siren either leaves the ghost list unchanged or applies the
reversal-flag update to every ghost. -/
lemma startGhostSiren_ghosts (pyg dying : Bool) (timer : ℚ)
    (initial remP remPP numSounds : ℕ) (curIdx : ℤ) (busy : Bool)
    (speedMult : ℚ) (ghosts : List Ghost) :
    (startGhostSiren pyg dying timer initial remP remPP numSounds curIdx
        busy speedMult ghosts).2.2 = ghosts ∨
    (startGhostSiren pyg dying timer initial remP remPP numSounds curIdx
        busy speedMult ghosts).2.2 = ghosts.map sirenReversalUpdate := by
  unfold startGhostSiren
  split
  · exact Or.inl rfl
  · split
    · split
      · exact Or.inr rfl
      · exact Or.inl rfl
    · exact Or.inl rfl

/-- Claim C6: on the tick where the evasion timer crosses from positive
to zero or below, the bonus resets to its base value and the ghost list
is updated pointwise so that every frightened ghost becomes active while
eaten and waiting ghosts are left entirely unchanged (the interleaved
siren restart can only raise the deferred-reversal flag of ghosts
already active, whose state stays active). -/
theorem C6_timer_expiry (pyg dying : Bool)
    (initial remP remPP numSounds : ℕ) (curIdx : ℤ) (busy : Bool)
    (speedMult : ℚ) (timer dt : ℚ) (bonus : ℤ) (ghosts : List Ghost)
    (hpos : 0 < timer) (hexp : timer - dt ≤ 0) :
    (frightenedExpiryStep pyg dying initial remP remPP numSounds curIdx busy
        speedMult timer dt bonus ghosts).2.1 = 200 ∧
    ∃ f, (frightenedExpiryStep pyg dying initial remP remPP numSounds curIdx
          busy speedMult timer dt bonus ghosts).2.2.2.2 = ghosts.map f ∧
      (∀ g : Ghost, g.state = GhostState.frightened →
        (f g).state = GhostState.active) ∧
      (∀ g : Ghost, g.state = GhostState.eaten → f g = g) ∧
      (∀ g : Ghost, g.state = GhostState.waiting → f g = g) ∧
      (∀ g : Ghost, g.state = GhostState.active →
        (f g).state = GhostState.active) := by
  unfold frightenedExpiryStep
  rw [if_pos hpos, if_pos hexp]
  refine ⟨rfl, ?_⟩
  rcases startGhostSiren_ghosts pyg dying (timer - dt) initial remP remPP
      numSounds curIdx false speedMult ghosts with hs | hs
  · refine ⟨expiryFlipUpdate, ?_, ?_, ?_, ?_, ?_⟩
    · show (startGhostSiren pyg dying (timer - dt) initial remP remPP
        numSounds curIdx false speedMult ghosts).2.2.map expiryFlipUpdate =
        ghosts.map expiryFlipUpdate
      rw [hs]
    · intro g hg
      unfold expiryFlipUpdate
      rw [if_pos hg]
    · intro g hg
      unfold expiryFlipUpdate
      rw [if_neg (by rw [hg]; intro h; exact GhostState.noConfusion h)]
    · intro g hg
      unfold expiryFlipUpdate
      rw [if_neg (by rw [hg]; intro h; exact GhostState.noConfusion h)]
    · intro g hg
      unfold expiryFlipUpdate
      rw [if_neg (by rw [hg]; intro h; exact GhostState.noConfusion h)]
      exact hg
  · refine ⟨fun g => expiryFlipUpdate (sirenReversalUpdate g), ?_, ?_, ?_, ?_, ?_⟩
    · show (startGhostSiren pyg dying (timer - dt) initial remP remPP
        numSounds curIdx false speedMult ghosts).2.2.map expiryFlipUpdate =
        ghosts.map fun g => expiryFlipUpdate (sirenReversalUpdate g)
      rw [hs, List.map_map]
      rfl
    · intro g hg
      simp [sirenReversalUpdate, expiryFlipUpdate, hg]
    · intro g hg
      simp [sirenReversalUpdate, expiryFlipUpdate, hg]
    · intro g hg
      simp [sirenReversalUpdate, expiryFlipUpdate, hg]
    · intro g hg
      simp [sirenReversalUpdate, expiryFlipUpdate, hg]

/-- Witness for claim C6 at a concrete tick: pygame on, player alive,
160 of 200 markers eaten with 5 siren sounds and current tier 2, timer
`1`, delta `2`, one ghost of each state. -/
theorem C6_timer_expiry_witness :
    ((0 : ℚ) < 1 ∧ (1 : ℚ) - 2 ≤ 0) ∧
    ((frightenedExpiryStep true false 200 38 2 5 2 true 1 1 2 800
        [⟨0, (0, 0), N4, GhostState.frightened, false, 0, 0, 0⟩,
         ⟨1, (0, 1), N4, GhostState.eaten, false, 0, 0, 0⟩,
         ⟨2, (1, 0), N4, GhostState.waiting, false, 0, 0, 0⟩]).2.1 = 200 ∧
      ∃ f, (frightenedExpiryStep true false 200 38 2 5 2 true 1 1 2 800
          [⟨0, (0, 0), N4, GhostState.frightened, false, 0, 0, 0⟩,
           ⟨1, (0, 1), N4, GhostState.eaten, false, 0, 0, 0⟩,
           ⟨2, (1, 0), N4, GhostState.waiting, false, 0, 0, 0⟩]).2.2.2.2 =
          [⟨0, (0, 0), N4, GhostState.frightened, false, 0, 0, 0⟩,
           ⟨1, (0, 1), N4, GhostState.eaten, false, 0, 0, 0⟩,
           ⟨2, (1, 0), N4, GhostState.waiting, false, 0, 0, 0⟩].map f ∧
        (∀ g : Ghost, g.state = GhostState.frightened →
          (f g).state = GhostState.active) ∧
        (∀ g : Ghost, g.state = GhostState.eaten → f g = g) ∧
        (∀ g : Ghost, g.state = GhostState.waiting → f g = g) ∧
        (∀ g : Ghost, g.state = GhostState.active →
          (f g).state = GhostState.active)) :=
  ⟨⟨by norm_num, by norm_num⟩,
    C6_timer_expiry true false 200 38 2 5 2 true 1 1 2 800 _
      (by norm_num) (by norm_num)⟩

/-- The power-marker consumption fragment of the decision point (source
lines 491-495, executed only while the player is not mid-move): remove
the marker, add `50` to the score, arm the evasion timer at `8.0`, reset
the ghost-eaten bonus to `200`, and set every active or frightened ghost
to frightened with its deferred-reversal flag raised. -/
def powerPelletStep (pos : Cell) (power : Cell → Bool) (score : ℤ)
    (timer : ℚ) (bonus : ℤ) (ghosts : List Ghost) :
    (Cell → Bool) × ℤ × ℚ × ℤ × List Ghost :=
  if power pos then
    (fun c => if c = pos then false else power c, score + 50, 8, 200,
      ghosts.map fun g =>
        if g.state = GhostState.active ∨ g.state = GhostState.frightened then
          {g with state := GhostState.frightened, reversalPending := true}
        else g)
  else (power, score, timer, bonus, ghosts)

/-- Claim C7: consuming a power marker at a decision point, within the
same tick, removes the marker, arms the evasion timer at `8.0`, resets
the bonus to `200`, and turns every active or frightened ghost
frightened with the deferred-reversal flag set, leaving waiting and
eaten ghosts untouched. -/
theorem C7_power_pellet (pos : Cell) (power : Cell → Bool) (score : ℤ)
    (timer : ℚ) (bonus : ℤ) (ghosts : List Ghost)
    (hmem : power pos = true) :
    (powerPelletStep pos power score timer bonus ghosts).1 pos = false ∧
    (powerPelletStep pos power score timer bonus ghosts).2.2.1 = 8 ∧
    (powerPelletStep pos power score timer bonus ghosts).2.2.2.1 = 200 ∧
    (powerPelletStep pos power score timer bonus ghosts).2.1 = score + 50 ∧
    ∃ f, (powerPelletStep pos power score timer bonus ghosts).2.2.2.2 =
        ghosts.map f ∧
      (∀ g : Ghost,
        g.state = GhostState.active ∨ g.state = GhostState.frightened →
        (f g).state = GhostState.frightened ∧
          (f g).reversalPending = true ∧ (f g).pos = g.pos) ∧
      (∀ g : Ghost, g.state = GhostState.waiting → f g = g) ∧
      (∀ g : Ghost, g.state = GhostState.eaten → f g = g) := by
  unfold powerPelletStep
  rw [if_pos hmem]
  refine ⟨by simp, rfl, rfl, rfl, _, rfl, ?_, ?_, ?_⟩
  · intro g hg
    rw [if_pos hg]
    exact ⟨rfl, rfl, rfl⟩
  · intro g hg
    rw [if_neg (by rw [hg]; rintro (h | h) <;> exact GhostState.noConfusion h)]
  · intro g hg
    rw [if_neg (by rw [hg]; rintro (h | h) <;> exact GhostState.noConfusion h)]

/-- Witness for claim C7: a power marker at `(1,1)` is consumed. -/
theorem C7_power_pellet_witness :
    (fun c : Cell => decide (c = (1, 1))) (1, 1) = true ∧
    (powerPelletStep (1, 1) (fun c => decide (c = (1, 1))) 0 0 800 []).1
        (1, 1) = false ∧
    (powerPelletStep (1, 1) (fun c => decide (c = (1, 1))) 0 0 800 []).2.2.1 = 8 :=
  ⟨by decide,
    (C7_power_pellet (1, 1) (fun c => decide (c = (1, 1))) 0 0 800 []
      (by decide)).1,
    (C7_power_pellet (1, 1) (fun c => decide (c = (1, 1))) 0 0 800 []
      (by decide)).2.1⟩

/-- The per-ghost collision resolution of the game loop (source lines
555-563): for an active or frightened ghost within the proximity
threshold (the source's `(cell_visual_size_px * 0.2)**2`, modelled with
the exact rational `1/5`), a frightened ghost is eaten — the score grows
by the current bonus, which then doubles — while an active ghost kills
the player (the returned flag). -/
def resolveGhostCollision (cellSize pacX pacY : ℚ) (g : Ghost)
    (score bonus : ℤ) (dying : Bool) : Ghost × ℤ × ℤ × Bool :=
  if (g.state = GhostState.active ∨ g.state = GhostState.frightened) ∧
      (pacX - g.px) ^ 2 + (pacY - g.py) ^ 2 < (cellSize * (1 / 5)) ^ 2 then
    if g.state = GhostState.frightened then
      ({g with state := GhostState.eaten}, score + bonus, bonus * 2, dying)
    else (g, score, bonus, true)
  else (g, score, bonus, dying)

/-- Folding the collision resolution over the ghost list, tracking score
and bonus. -/
def collisionFold (cellSize pacX pacY : ℚ) (ghosts : List Ghost)
    (score bonus : ℤ) : ℤ × ℤ :=
  ghosts.foldl
    (fun sb g =>
      ((resolveGhostCollision cellSize pacX pacY g sb.1 sb.2 false).2.1,
        (resolveGhostCollision cellSize pacX pacY g sb.1 sb.2 false).2.2.1))
    (score, bonus)

/-- A close frightened ghost is eaten, the score grows by the bonus, and
the bonus doubles. -/
lemma resolveGhostCollision_frightened {cellSize pacX pacY : ℚ} {g : Ghost}
    {score bonus : ℤ} {dying : Bool}
    (hf : g.state = GhostState.frightened)
    (hclose : (pacX - g.px) ^ 2 + (pacY - g.py) ^ 2 < (cellSize * (1 / 5)) ^ 2) :
    resolveGhostCollision cellSize pacX pacY g score bonus dying =
      ({g with state := GhostState.eaten}, score + bonus, bonus * 2, dying) := by
  unfold resolveGhostCollision
  rw [if_pos ⟨Or.inr hf, hclose⟩, if_pos hf]

/-- Closed form of consecutive catches: each catch adds the current bonus
and doubles it. -/
lemma collisionFold_all (cellSize pacX pacY : ℚ) :
    ∀ (gl : List Ghost) (s b : ℤ),
      (∀ g ∈ gl, g.state = GhostState.frightened ∧
        (pacX - g.px) ^ 2 + (pacY - g.py) ^ 2 < (cellSize * (1 / 5)) ^ 2) →
      collisionFold cellSize pacX pacY gl s b =
        (s + b * (2 ^ gl.length - 1), b * 2 ^ gl.length)
  | [], s, b, _ => by
      unfold collisionFold
      simp
  | g :: gl, s, b, hall => by
      have hg := hall g (List.mem_cons_self g gl)
      unfold collisionFold
      rw [List.foldl_cons]
      rw [show ((resolveGhostCollision cellSize pacX pacY g
          (s, b).1 (s, b).2 false).2.1,
          (resolveGhostCollision cellSize pacX pacY g (s, b).1 (s, b).2
            false).2.2.1) = (s + b, b * 2) by
        rw [resolveGhostCollision_frightened hg.1 hg.2]]
      have ih := collisionFold_all cellSize pacX pacY gl (s + b) (b * 2)
        fun g' hg' => hall g' (List.mem_cons_of_mem g hg')
      unfold collisionFold at ih
      rw [ih]
      rw [Prod.mk.injEq]
      constructor
      · rw [List.length_cons, pow_succ]
        ring
      · rw [List.length_cons, pow_succ]
        ring

/-- Claim C8: a collision with a frightened ghost below the threshold
turns it eaten, awards the current bonus and doubles the bonus; starting
from the base bonus `200`, the k-th consecutive catch within one evasion
window awards `200 * 2^(k-1)` points. -/
theorem C8_ghost_eaten_bonus (cellSize pacX pacY : ℚ) (s0 : ℤ)
    (ghosts : List Ghost)
    (hall : ∀ g ∈ ghosts, g.state = GhostState.frightened ∧
      (pacX - g.px) ^ 2 + (pacY - g.py) ^ 2 < (cellSize * (1 / 5)) ^ 2) :
    (∀ g ∈ ghosts, ∀ (score bonus : ℤ) (dying : Bool),
      resolveGhostCollision cellSize pacX pacY g score bonus dying =
        ({g with state := GhostState.eaten}, score + bonus, bonus * 2, dying)) ∧
    (∀ k, k ≤ ghosts.length →
      collisionFold cellSize pacX pacY (ghosts.take k) s0 200 =
        (s0 + 200 * (2 ^ k - 1), 200 * 2 ^ k)) ∧
    (∀ k, 1 ≤ k → k ≤ ghosts.length →
      (collisionFold cellSize pacX pacY (ghosts.take k) s0 200).1 -
          (collisionFold cellSize pacX pacY (ghosts.take (k - 1)) s0 200).1 =
        200 * 2 ^ (k - 1)) := by
  have htake : ∀ k, k ≤ ghosts.length →
      collisionFold cellSize pacX pacY (ghosts.take k) s0 200 =
        (s0 + 200 * (2 ^ k - 1), 200 * 2 ^ k) := by
    intro k hk
    have := collisionFold_all cellSize pacX pacY (ghosts.take k) s0 200
      fun g hg => hall g (List.take_subset k ghosts hg)
    rw [this, List.length_take]
    congr 2 <;> rw [Nat.min_eq_left hk]
  refine ⟨?_, htake, ?_⟩
  · intro g hg score bonus dying
    exact resolveGhostCollision_frightened (hall g hg).1 (hall g hg).2
  · intro k hk1 hk2
    obtain ⟨j, rfl⟩ : ∃ j, k = j + 1 := ⟨k - 1, by omega⟩
    rw [htake (j + 1) hk2, htake ((j + 1) - 1) (by omega)]
    simp only [Nat.add_sub_cancel]
    rw [pow_succ]
    ring

/-- Witness for claim C8: two frightened ghosts adjacent to the player at
cell size `10`; the second catch awards `400 = 200 * 2^1`. -/
theorem C8_ghost_eaten_bonus_witness :
    (∀ g ∈ [(⟨0, (0, 0), N4, GhostState.frightened, false, 31, 30, 0⟩ : Ghost),
        ⟨1, (0, 1), N4, GhostState.frightened, false, 30, 31, 0⟩],
      g.state = GhostState.frightened ∧
        ((30 : ℚ) - g.px) ^ 2 + ((30 : ℚ) - g.py) ^ 2 < ((10 : ℚ) * (1 / 5)) ^ 2) ∧
    (collisionFold 10 30 30
        [⟨0, (0, 0), N4, GhostState.frightened, false, 31, 30, 0⟩,
         ⟨1, (0, 1), N4, GhostState.frightened, false, 30, 31, 0⟩] 0 200 =
      (0 + 200 * (2 ^ 2 - 1), 200 * 2 ^ 2)) := by
  have hall : ∀ g ∈ [(⟨0, (0, 0), N4, GhostState.frightened, false, 31, 30, 0⟩ : Ghost),
      ⟨1, (0, 1), N4, GhostState.frightened, false, 30, 31, 0⟩],
      g.state = GhostState.frightened ∧
        ((30 : ℚ) - g.px) ^ 2 + ((30 : ℚ) - g.py) ^ 2 < ((10 : ℚ) * (1 / 5)) ^ 2 := by
    intro g hg
    fin_cases hg
    · exact ⟨rfl, by norm_num⟩
    · exact ⟨rfl, by norm_num⟩
  exact ⟨hall, by
    have := (C8_ghost_eaten_bonus 10 30 30 0 _ hall).2.1 2 (by norm_num)
    simpa using this⟩

/-- The player's speed modifier
`1.0 + (percent_eaten**0.7 * PACMAN_MAX_SPEED_MODIFIER)`, with the float
power `**0.7` abstracted as `pow07` (IEEE `0.0 ** 0.7 = 0.0` exactly,
which is the only value the zero-marker claim needs). -/
def pacmanSpeedModifier (pow07 : ℚ → ℚ) (initial remP remPP : ℕ) : ℚ :=
  1 + pow07 (percentEaten initial remP remPP) * (3 / 2)

/-- Claim C9: with zero initial consumable markers the fraction eaten is
defined to be `0` by the explicit zero-check — no division is reached —
and the speed modifier stays at its base value `1`. -/
theorem C9_zero_pellets (remP remPP : ℕ) (pow07 : ℚ → ℚ)
    (h0 : pow07 0 = 0) :
    percentEaten 0 remP remPP = 0 ∧
    pacmanSpeedModifier pow07 0 remP remPP = 1 := by
  have hpe : percentEaten 0 remP remPP = 0 := by
    unfold percentEaten
    rw [if_neg (lt_irrefl 0)]
  refine ⟨hpe, ?_⟩
  unfold pacmanSpeedModifier
  rw [hpe, h0]
  ring

/-- Witness for claim C9 with a concrete abstraction of the float power
(any function sending `0` to `0`, as IEEE exponentiation does). -/
theorem C9_zero_pellets_witness :
    (fun _ : ℚ => (0 : ℚ)) 0 = 0 ∧
    (percentEaten 0 5 7 = 0 ∧
      pacmanSpeedModifier (fun _ => 0) 0 5 7 = 1) :=
  ⟨rfl, C9_zero_pellets 5 7 (fun _ => 0) rfl⟩

/-! ## Session-start marker placement (`start_game`,
`_find_accessible_pellets`, `_place_power_pellets`) -/

/-- One direction of the accessibility BFS inner loop
(`_find_accessible_pellets`): an open edge to an unvisited in-range cell
adds it to the visited set and the queue. -/
def accExpandDir (m : Maze) (p : Cell) (st : List Cell × List Cell)
    (d : ℕ) : List Cell × List Cell :=
  if hasWall m p.1 p.2 d = false then
    if inRangeB m (stepCell p d) = true ∧ stepCell p d ∉ st.1 then
      (st.1 ++ [stepCell p d], st.2 ++ [stepCell p d])
    else st
  else st

/-- The accessibility BFS `while` loop, fuel-recursive like `bfsLoop`. -/
def accLoop (m : Maze) : ℕ → List Cell → List Cell → List Cell
  | 0, vis, _ => vis
  | _ + 1, vis, [] => vis
  | fuel + 1, vis, p :: q =>
      let st := (List.range 4).foldl (accExpandDir m p) (vis, q)
      accLoop m fuel st.1 st.2

/-- `_find_accessible_pellets`: the set of cells reachable from the start
cell, computed by BFS seeded with the start cell. -/
def findAccessiblePellets (m : Maze) : List Cell :=
  accLoop m (m.gridSize * m.gridSize + 1) [m.startCell] [m.startCell]

/-- The four corner probes of `_place_power_pellets`. -/
def powerCorners (m : Maze) : List Cell :=
  [(1, 1), (1, (m.gridSize : ℤ) - 2), ((m.gridSize : ℤ) - 2, 1),
    ((m.gridSize : ℤ) - 2, (m.gridSize : ℤ) - 2)]

/-- The probe cells scanned for one corner, in the source's nested-loop
order: offsets `0 ≤ r_offset, c_offset < gs // 4`, moving inward
(`+ offset` when the corner lies in the low half, `- offset` otherwise,
via the `r_start < gs / 2` float comparison, i.e. `2 r_start < gs`). -/
def cornerCandidates (m : Maze) (rs cs : ℤ) : List Cell :=
  (List.range (m.gridSize / 4)).flatMap fun (ro : ℕ) =>
    (List.range (m.gridSize / 4)).map fun (co : ℕ) =>
      ((if 2 * rs < (m.gridSize : ℤ) then rs + (ro : ℤ) else rs - (ro : ℤ)),
        (if 2 * cs < (m.gridSize : ℤ) then cs + (co : ℤ) else cs - (co : ℤ)))

/-- The first accessible non-goal probe cell of a corner (the nested
loops break on the first placement). -/
def cornerPick (m : Maze) (acc : List Cell) (rs cs : ℤ) : Option Cell :=
  (cornerCandidates m rs cs).find? fun p =>
    decide (p ∈ acc) && !decide (p ∈ m.goalCells)

/-- `_place_power_pellets` as a membership predicate: a cell carries a
power marker iff some corner's pick landed on it. -/
def startPowerPellets (m : Maze) (acc : List Cell) : Cell → Bool :=
  fun c => (powerCorners m).any fun rc =>
    decide (cornerPick m acc rc.1 rc.2 = some c)

/-- The marker sets right after `start_game` has placed them: regular
markers on every accessible non-goal cell, minus the cells that received
a power marker (the deletion loop at the end of `_place_power_pellets`);
power markers from the corner picks. -/
def startGameMarkers (m : Maze) : (Cell → Bool) × (Cell → Bool) :=
  (fun c =>
      (decide (c ∈ findAccessiblePellets m) &&
        !decide (c ∈ m.goalCells)) &&
        !startPowerPellets m (findAccessiblePellets m) c,
    startPowerPellets m (findAccessiblePellets m))

/-- The session's goal-cell set once `start_game` has finished:
`_create_ghost_return_map` (called after marker placement) replaces an
empty `goal_cells` set by the structural center. -/
def goalsAfterStart (m : Maze) : List Cell := effectiveGoals m

/-- The direction fold of the accessibility BFS only adds cells adjacent
to the dequeued cell. -/
lemma accFold_sound {m : Maze} {p : Cell} :
    ∀ (L : List ℕ) (st : List Cell × List Cell),
      (∀ d ∈ L, d < 4) →
      ∀ x ∈ ((L.foldl (accExpandDir m p) st).1 ++
          (L.foldl (accExpandDir m p) st).2),
        x ∈ st.1 ++ st.2 ∨ AdjB m p x
  | [], st, _, x, hx => Or.inl hx
  | d :: L, st, hL, x, hx => by
      have hd4 : d < 4 := hL d (List.mem_cons_self d L)
      rw [List.foldl_cons] at hx
      have ih := accFold_sound L (accExpandDir m p st d)
        (fun d' hd' => hL d' (List.mem_cons_of_mem d hd')) x hx
      rcases ih with h | h
      · unfold accExpandDir at h
        split at h
        · next hw =>
            split at h
            · next hcond =>
                simp only [List.append_assoc, List.mem_append,
                  List.mem_singleton] at h
                rcases h with h | h | h | h
                · exact Or.inl (List.mem_append.mpr (Or.inl h))
                · -- freshly visited neighbor
                  refine Or.inr ⟨?_, by rw [h]; exact hcond.1, d, hd4, hw, h⟩
                  have := inRange_of_hasWall_false hw
                  simp only [inRangeB, decide_eq_true_eq]
                  exact this
                · exact Or.inl (List.mem_append.mpr (Or.inr h))
                · refine Or.inr ⟨?_, by rw [h]; exact hcond.1, d, hd4, hw, h⟩
                  have := inRange_of_hasWall_false hw
                  simp only [inRangeB, decide_eq_true_eq]
                  exact this
            · exact Or.inl h
        · exact Or.inl h
      · exact Or.inr h

/-- Soundness of the accessibility BFS: every returned cell is connected
to the start cell through non-walled edges. -/
lemma accLoop_sound {m : Maze} :
    ∀ (fuel : ℕ) (vis q : List Cell),
      (∀ v ∈ vis, Relation.ReflTransGen (AdjB m) m.startCell v) →
      (∀ x ∈ q, Relation.ReflTransGen (AdjB m) m.startCell x) →
      ∀ v ∈ accLoop m fuel vis q,
        Relation.ReflTransGen (AdjB m) m.startCell v
  | 0, _, _, hvis, _, v, hv => hvis v hv
  | _ + 1, _, [], hvis, _, v, hv => hvis v hv
  | fuel + 1, vis, p :: q, hvis, hq, v, hv => by
      have hp := hq p (List.mem_cons_self p q)
      have hsound := accFold_sound (m := m) (p := p) (List.range 4) (vis, q)
        (fun d hd => List.mem_range.mp hd)
      refine accLoop_sound fuel _ _ ?_ ?_ v hv
      · intro x hx
        rcases hsound x (List.mem_append.mpr (Or.inl hx)) with h | h
        · rcases List.mem_append.mp h with h' | h'
          · exact hvis x h'
          · exact hq x (List.mem_cons_of_mem p h')
        · exact hp.tail h
      · intro x hx
        rcases hsound x (List.mem_append.mpr (Or.inr hx)) with h | h
        · rcases List.mem_append.mp h with h' | h'
          · exact hvis x h'
          · exact hq x (List.mem_cons_of_mem p h')
        · exact hp.tail h

/-- Every accessible cell is connected to the start cell. -/
lemma findAccessiblePellets_sound {m : Maze} {c : Cell}
    (hc : c ∈ findAccessiblePellets m) :
    Relation.ReflTransGen (AdjB m) m.startCell c := by
  refine accLoop_sound _ [m.startCell] [m.startCell] ?_ ?_ c hc <;>
    · intro v hv
      rw [List.mem_singleton] at hv
      rw [hv]

/-- A 2×2 maze like `closedMaze2` but with no goal cells in the data. -/
def emptyGoalMaze : Maze :=
  { gridSize := 2
    hWalls := [[true, true], [false, false], [true, true]]
    vWalls := [[true, false, true], [true, false, true]]
    startCell := (1, 0)
    goalCells := [] }

/-- Claim C10, counterexample.  With an empty goal-cell set, `start_game`
places a regular marker on every accessible cell (no goal exclusion
applies), and `_create_ghost_return_map` afterwards adds the structural
center to the session's goal set — so at session start the goal cell
`(0,0)` carries a regular marker. -/
theorem C10_counterexample :
    (startGameMarkers emptyGoalMaze).1 (0, 0) = true ∧
    ((0 : ℤ), (0 : ℤ)) ∈ goalsAfterStart emptyGoalMaze := by
  refine ⟨by decide, by decide⟩

/-- Claim C10, amended: at session start every regular and every power
marker lies on a cell connected to the player's start cell through
non-walled edges, and no cell carries both marker kinds; moreover, when
the initial goal-cell set is nonempty (so the empty-set center fallback
does not fire), no marker of either kind lies on a cell of the session's
goal set. -/
theorem C10_marker_invariants (m : Maze) :
    (∀ c, (startGameMarkers m).1 c = true →
      Relation.ReflTransGen (AdjB m) m.startCell c) ∧
    (∀ c, (startGameMarkers m).2 c = true →
      Relation.ReflTransGen (AdjB m) m.startCell c) ∧
    (∀ c, ¬((startGameMarkers m).1 c = true ∧
      (startGameMarkers m).2 c = true)) ∧
    (m.goalCells ≠ [] →
      ∀ c, (startGameMarkers m).1 c = true ∨ (startGameMarkers m).2 c = true →
        c ∉ goalsAfterStart m) := by
  have hpow : ∀ c, startPowerPellets m (findAccessiblePellets m) c = true →
      c ∈ findAccessiblePellets m ∧ c ∉ m.goalCells := by
    intro c hc
    unfold startPowerPellets at hc
    rw [List.any_eq_true] at hc
    obtain ⟨rc, _, hpick⟩ := hc
    rw [decide_eq_true_eq] at hpick
    have := List.find?_some hpick
    rw [Bool.and_eq_true, decide_eq_true_eq, Bool.not_eq_true',
      decide_eq_false_iff_not] at this
    exact this
  refine ⟨?_, ?_, ?_, ?_⟩
  · intro c hc
    unfold startGameMarkers at hc
    dsimp only at hc
    simp only [Bool.and_eq_true, decide_eq_true_eq] at hc
    exact findAccessiblePellets_sound hc.1.1
  · intro c hc
    exact findAccessiblePellets_sound (hpow c hc).1
  · rintro c ⟨h1, h2⟩
    unfold startGameMarkers at h1 h2
    dsimp only at h1 h2
    simp only [Bool.and_eq_true, Bool.not_eq_true'] at h1
    rw [h1.2] at h2
    exact Bool.false_ne_true h2
  · intro hne c hc
    have hgoals : goalsAfterStart m = m.goalCells := by
      unfold goalsAfterStart effectiveGoals
      rw [if_neg hne]
    rw [hgoals]
    rcases hc with h | h
    · unfold startGameMarkers at h
      dsimp only at h
      simp only [Bool.and_eq_true, Bool.not_eq_true',
        decide_eq_false_iff_not, decide_eq_true_eq] at h
      exact h.1.2
    · exact (hpow c h).2

/-- Witness for the amended claim C10 on `closedMaze2` (nonempty goal
set): the regular marker at `(1,1)` is connected to the start and off the
goal set. -/
theorem C10_marker_invariants_witness :
    closedMaze2.goalCells ≠ [] ∧
    (startGameMarkers closedMaze2).1 (1, 1) = true ∧
    (Relation.ReflTransGen (AdjB closedMaze2) closedMaze2.startCell (1, 1) ∧
      ((1 : ℤ), (1 : ℤ)) ∉ goalsAfterStart closedMaze2) :=
  ⟨by decide, by decide,
    (C10_marker_invariants closedMaze2).1 (1, 1) (by decide),
    (C10_marker_invariants closedMaze2).2.2.2 (by decide) (1, 1)
      (Or.inl (by decide))⟩

end Pacman
